import Mathlib

/-!
# Verification of the `simplepolygon` decomposition engine

This file is a shallow embedding, in Lean 4, of the decomposition engine of
the `simplepolygon` package (`src/src/index.ts`): the input normalizer, the
pseudo-vertex / intersection graph builder, the winding seeder, the
queue-driven walker, and the parent / net-winding post-processor.

Modelling conventions:
* JavaScript numbers are modelled by exact rationals `Q` (an integer
  numerator with a positive integer denominator, compared by
  cross-multiplication; float rounding is out of scope for the claims under
  study).  The single place where the value `Infinity` matters
  (`determineParents`) uses an explicit `JSNum` type with an infinity point.
* GeoJSON positions are modelled as pairs `Q × Q`; `equalArrays` on
  positions is component-wise value equality.
* External collaborators (the segment-intersection engine `gpsi`, turf's
  `booleanPointInPolygon` and `area`) are parameters of the model, used
  according to their contracts from the specification; concrete theorems
  instantiate them with concrete data.
* Mutation is modelled by explicit state passing; fallible steps (JS
  `throw`, or a JS crash from dereferencing `undefined`) return `Option`,
  with `none` for an abnormal end.  Unbounded loops and recursions carry
  explicit fuel -- `none` on fuel exhaustion corresponds to divergence of
  the JS loop.
* JS `Array.prototype.sort` with the comparators used by the source (which
  only return -1/1) is modelled by a stable insertion sort; for the strict
  total comparators arising in the claims the result is the unique sorted
  permutation, so the choice of a stable algorithm is immaterial.
-/

namespace SimplePolygon

/-- An exact rational: a JS number value.  The denominator is kept positive;
fractions are not normalised, and all comparisons used by the model go
through cross-multiplication, which matches equality and order of the
represented values. -/
structure Q where
  num : ℤ
  den : ℤ
  dpos : 0 < den

instance (n : ℕ) : OfNat Q n := ⟨⟨(n : ℤ), 1, Int.zero_lt_one⟩⟩

/-- Build a `Q` from an integer. -/
def Q.ofInt (n : ℤ) : Q := ⟨n, 1, Int.zero_lt_one⟩

/-- Build a `Q` from a numerator and a positive denominator. -/
def Q.mk' (n d : ℤ) (h : 0 < d := by decide) : Q := ⟨n, d, h⟩

/-- Value equality of JS numbers (cross-multiplication). -/
def Q.eqb (a b : Q) : Bool := a.num * b.den == b.num * a.den

/-- Value order `a < b` of JS numbers (cross-multiplication; denominators
are positive). -/
def Q.ltb (a b : Q) : Bool := decide (a.num * b.den < b.num * a.den)

/-- Value order `a <= b` of JS numbers (cross-multiplication). -/
def Q.leb (a b : Q) : Bool := decide (a.num * b.den ≤ b.num * a.den)

def Q.add (a b : Q) : Q := ⟨a.num * b.den + b.num * a.den, a.den * b.den, mul_pos a.dpos b.dpos⟩

def Q.sub (a b : Q) : Q := ⟨a.num * b.den - b.num * a.den, a.den * b.den, mul_pos a.dpos b.dpos⟩

def Q.mul (a b : Q) : Q := ⟨a.num * b.num, a.den * b.den, mul_pos a.dpos b.dpos⟩

def Q.neg (a : Q) : Q := ⟨-a.num, a.den, a.dpos⟩

/-- The rational value represented by a `Q` (used on the proof side to
transfer the cross-multiplication comparisons to the linear order of `ℚ`). -/
def Q.toRat (a : Q) : ℚ := (a.num : ℚ) / (a.den : ℚ)

/-- A GeoJSON position `[x, y]` (`Position` in the source). -/
abbrev Coord := Q × Q

/-- `equalArrays` on positions: component-wise JS number equality. -/
def coordEq (a b : Coord) : Bool := Q.eqb a.1 b.1 && Q.eqb a.2 b.2

/-- JS `((n % m) + m) % m` -- the `mod` helper of `src/src/index.ts`
(line 641), fixing JS `%` for negative operands.  All call sites of the
source pass integers. -/
def mod (n m : ℤ) : ℤ := ((n % m) + m) % m

/-- `isConvex` (src/src/index.ts line 605): signed-area test
`d = (x1-x0)*(y2-y0) - (y1-y0)*(x2-x0)`, returning `(d >= 0) == righthanded`.
The source takes an array of three points and throws on any other length;
we take the three points directly. -/
def isConvex (p0 p1 p2 : Coord) (righthanded : Bool) : Bool :=
  let d := Q.sub (Q.mul (Q.sub p1.1 p0.1) (Q.sub p2.2 p0.2))
                 (Q.mul (Q.sub p1.2 p0.2) (Q.sub p2.1 p0.1))
  (Q.leb 0 d) == righthanded

/-- The discriminant computed inside `isConvex` (twice the signed area of
the triangle `p0 p1 p2`). -/
def signedAreaD (p0 p1 p2 : Coord) : Q :=
  Q.sub (Q.mul (Q.sub p1.1 p0.1) (Q.sub p2.2 p0.2))
        (Q.mul (Q.sub p1.2 p0.2) (Q.sub p2.1 p0.1))

/-- `signedAreaD` represents the value zero (collinear points). -/
def collinearD (p0 p1 p2 : Coord) : Prop := (signedAreaD p0 p1 p2).num = 0

instance (p0 p1 p2 : Coord) : Decidable (collinearD p0 p1 p2) :=
  inferInstanceAs (Decidable (_ = _))

/-- The left-most-vertex scan of `windingOfRing` (src/src/index.ts lines
618-622): scan `i` over `[0, ring.length - 1)`; replace the candidate iff
`ring[i][0] < ring[leftVtx][0]` (strict, so the first minimum wins). -/
def leftVtxScan (ring : List Coord) : ℕ :=
  (List.range (ring.length - 1)).foldl
    (fun leftVtx i =>
      if Q.ltb (ring.getD i (0, 0)).1 (ring.getD leftVtx (0, 0)).1 then i else leftVtx)
    0

/-- `windingOfRing` (src/src/index.ts line 616): winding of a simple ring
from the convexity of its extremal (smallest-x) vertex. -/
def windingOfRing (ring : List Coord) : ℤ :=
  let leftVtx := leftVtxScan ring
  let n := ring.length - 1
  if isConvex (ring.getD ((mod ((leftVtx : ℤ) - 1) (n : ℤ)).toNat) (0, 0))
      (ring.getD leftVtx (0, 0))
      (ring.getD ((mod ((leftVtx : ℤ) + 1) (n : ℤ)).toNat) (0, 0))
      true
  then 1 else -1


/-! ## Input normalizer (src/src/index.ts lines 50-64)

The duplicate-vertex check of the source is
`vertices.length != new Set(vertices).size`, where `vertices` is an array
of `Position` *objects*.  A JS `Set` deduplicates object elements by
reference, not by value, so the model of this check must track object
identity: a `TaggedPos` is a coordinate value together with the identity of
the array object holding it.  A feature freshly parsed from JSON text has
pairwise distinct position objects. -/

/-- A position object: JS object identity paired with the `[x, y]` value. -/
abbrev TaggedPos := ℕ × Coord

/-- Ring closure on position objects (src/src/index.ts lines 55-57):
`if (!equalArrays(ring[0], ring[ring.length-1])) ring.push(ring[0])` --
note that the pushed closing entry is the *same object* as `ring[0]`.
`equalArrays` (from the gpsi package; per spec §2, exact array equality)
compares values. -/
def closeRingT (ring : List TaggedPos) : List TaggedPos :=
  match ring with
  | [] => []
  | c :: rest =>
    if coordEq c.2 (((c :: rest).getLast (by simp)).2) then c :: rest
    else (c :: rest) ++ [c]

/-- The flattened `vertices` array (src/src/index.ts lines 52-59): for each
(closed) ring, all positions except the closing one. -/
def verticesOf (rings : List (List TaggedPos)) : List TaggedPos :=
  (rings.map (fun r => (closeRingT r).dropLast)).flatten

/-- `new Set(vertices).size`: a JS `Set` of objects deduplicates by
reference, i.e. by the identity tag. -/
def jsSetSize (vertices : List TaggedPos) : ℕ :=
  ((vertices.map Prod.fst).dedup).length

/-- The duplicate-vertex guard (src/src/index.ts line 60):
`vertices.length != new Set(vertices).size`; `true` means the
`InvalidInput` error is thrown. -/
def duplicateCheckThrows (rings : List (List TaggedPos)) : Bool :=
  (verticesOf rings).length != jsSetSize (verticesOf rings)

/-- Does a list of coordinate values contain a repeated value? -/
def hasDupValues : List Coord → Bool
  | [] => false
  | c :: t => t.any (coordEq c) || hasDupValues t

/-! ## The input feature and in-place closure (src/src/index.ts lines 39-59) -/

/-- A GeoJSON polygon feature, generic over the type of its `properties`
field (which the engine never touches). -/
structure Feature (α : Type) where
  ftype : String
  properties : α
  gtype : String
  coordinates : List (List Coord)

/-- Ring closure on coordinate values (the value shadow of `closeRingT`). -/
def closeRing (ring : List Coord) : List Coord :=
  match ring with
  | [] => []
  | c :: rest =>
    if coordEq c ((c :: rest).getLast (by simp)) then c :: rest
    else (c :: rest) ++ [c]

/-- The input-processing step (src/src/index.ts lines 50-59) as a state
transformer on the caller's feature: each open ring is closed in place by
appending its first vertex; no other field is written. -/
def processInput {α : Type} (f : Feature α) : Feature α :=
  { f with coordinates := f.coordinates.map closeRing }

/-- A concrete feature with one open triangle ring (for the C9 witness). -/
def openTriangleFeature : Feature ℕ where
  ftype := "Feature"
  properties := 7
  gtype := "Polygon"
  coordinates := [[((0 : Q), (0 : Q)), (1, 0), (1, 1)]]

/-- The same feature with the ring closed in place (for the C9 witness). -/
def closedTriangleFeature : Feature ℕ where
  ftype := "Feature"
  properties := 7
  gtype := "Polygon"
  coordinates := [[((0 : Q), (0 : Q)), (1, 0), (1, 1), (0, 0)]]

/-! ## Graph entities (src/src/index.ts lines 536-602) -/

instance : DecidableEq Q := fun a b =>
  decidable_of_iff (a.num = b.num ∧ a.den = b.den) (by cases a; cases b; simp)

/-- A (ring- or intersection-) pseudo-vertex (class `PseudoVtx`). -/
structure PseudoVtx where
  coord : Coord
  param : Q
  ringAndEdgeIn : ℕ × ℕ
  ringAndEdgeOut : ℕ × ℕ
  nxtIsectAlongEdgeIn : Option ℕ := none
deriving DecidableEq

/-- An intersection (class `Isect`): a ring-vertex intersection, a
self-intersection or a cross-intersection. -/
structure Isect where
  coord : Coord
  ringAndEdge1 : ℕ × ℕ
  ringAndEdge2 : ℕ × ℕ
  ringAndEdge1Walkable : Bool
  ringAndEdge2Walkable : Bool
  nxtIsectAlongRingAndEdge1 : Option ℕ := none
  nxtIsectAlongRingAndEdge2 : Option ℕ := none
deriving DecidableEq

instance : Inhabited Isect := ⟨⟨(0, 0), (0, 0), (0, 0), false, false, none, none⟩⟩

/-- One record of the external segment-intersection engine `gpsi`, as
captured by the callback of src/src/index.ts lines 68-111 (a 12-tuple).
Per the contract (spec §4.2), each strict interior crossing of two edges
yields two such records, one per incoming-edge viewpoint, with the `unique`
flag set on exactly one of the two. -/
structure IsectRecord where
  isect : Coord
  ring0 : ℕ
  edge0 : ℕ
  start0 : Coord
  end0 : Coord
  frac0 : Q
  ring1 : ℕ
  edge1 : ℕ
  start1 : Coord
  end1 : Coord
  frac1 : Q
  unique : Bool

/-- A work-queue entry ({ isect, parent, winding }). -/
structure QueueItem where
  isect : ℕ
  parent : ℤ
  winding : ℤ
deriving DecidableEq

/-! ## JS array sort

`Array.prototype.sort` with the source's comparators (which return only
-1/1) is modelled by a stable insertion sort driven by the `-1` branch of
the comparator: `lt a b` holds exactly when the comparator returns `-1` on
`(a, b)`.  For a strict total comparator the result is the unique sorted
permutation. -/

def jsInsert {α : Type} (lt : α → α → Bool) (a : α) : List α → List α
  | [] => [a]
  | b :: t => if lt a b then a :: b :: t else b :: jsInsert lt a t

def jsSort {α : Type} (lt : α → α → Bool) (l : List α) : List α :=
  l.foldl (fun acc a => jsInsert lt a acc) []

/-! ## Graph builder (src/src/index.ts lines 139-281) -/

/-- Ring pseudo-vertices (lines 143-156): for ring `i` and edge `j`, one
PV at vertex `j+1 (mod L-1)` with `param = 1`. -/
def initialPseudoVtxList (rings : List (List Coord)) : List (List (List PseudoVtx)) :=
  rings.enum.map (fun p =>
    (List.range (p.2.length - 1)).map (fun j =>
      [{ coord := p.2.getD ((mod ((j : ℤ) + 1) ((p.2.length - 1 : ℕ) : ℤ)).toNat) (0, 0),
         param := 1,
         ringAndEdgeIn := (p.1, j),
         ringAndEdgeOut := (p.1, (mod ((j : ℤ) + 1) ((p.2.length - 1 : ℕ) : ℤ)).toNat) }]))

/-- Ring-vertex intersections (lines 157-166): for ring `i` and vertex `j`,
edge1 is the incoming edge `(i, j-1 mod L-1)`, edge2 the outgoing `(i, j)`;
only edge2 is walkable. -/
def initialIsectList (rings : List (List Coord)) : List Isect :=
  (rings.enum.map (fun p =>
    (List.range (p.2.length - 1)).map (fun j =>
      { coord := p.2.getD j (0, 0),
        ringAndEdge1 := (p.1, (mod ((j : ℤ) - 1) ((p.2.length - 1 : ℕ) : ℤ)).toNat),
        ringAndEdge2 := (p.1, j),
        ringAndEdge1Walkable := false,
        ringAndEdge2Walkable := true }))).flatten

/-- `numvertices`: total count of non-closing input vertices. -/
def numverticesOf (rings : List (List Coord)) : ℕ :=
  (rings.map (fun r => r.length - 1)).sum

/-- Append a PV to `pseudoVtxListByRingAndEdge[r][e]`; `none` models the JS
crash on an out-of-range ring or edge index. -/
def pushPV (pvs : List (List (List PseudoVtx))) (r e : ℕ) (pv : PseudoVtx) :
    Option (List (List (List PseudoVtx))) := do
  let ringList ← pvs.get? r
  let edgeList ← ringList.get? e
  pure (pvs.set r (ringList.set e (edgeList ++ [pv])))

/-- Intersection pseudo-vertices and self-intersections (lines 170-191):
each record adds a PV on its incoming (ring0, edge0); records flagged
`unique` additionally append an `Isect` with both sides walkable. -/
def addIsectRecords (pvs : List (List (List PseudoVtx))) (isects : List Isect)
    (records : List IsectRecord) :
    Option (List (List (List PseudoVtx)) × List Isect) :=
  records.foldlM (fun st r => do
    let pv : PseudoVtx :=
      { coord := r.isect, param := r.frac0,
        ringAndEdgeIn := (r.ring0, r.edge0), ringAndEdgeOut := (r.ring1, r.edge1) }
    let pvs' ← pushPV st.1 r.ring0 r.edge0 pv
    let isects' := if r.unique
      then st.2 ++ [{ coord := r.isect,
                      ringAndEdge1 := (r.ring0, r.edge0),
                      ringAndEdge2 := (r.ring1, r.edge1),
                      ringAndEdge1Walkable := true,
                      ringAndEdge2Walkable := true }]
      else st.2
    pure (pvs', isects')) (pvs, isects)

/-- Sort each edge's PV list by fractional distance (lines 193-200); the
comparator is `a.param < b.param ? -1 : 1`. -/
def sortPVs (pvs : List (List (List PseudoVtx))) : List (List (List PseudoVtx)) :=
  pvs.map (fun ringList => ringList.map (jsSort (fun a b => Q.ltb a.param b.param)))

/-- Coordinate-to-index lookup through the R-tree of intersections (lines
203-215, 233-240, 251-257).  The R-tree is queried with a degenerate point
box and the first result is taken; intersection coordinates are unique in
the intended regime, in which case this is the unique match, modelled as
the first match in list order. -/
def findIsectIdx (isects : List Isect) (c : Coord) : Option ℕ :=
  isects.findIdx? (fun it => coordEq it.coord c)

/-- Wire each PV's `nxtIsectAlongEdgeIn` (lines 220-243): the intersection
at the coordinate of the next PV on the same edge, or of the first PV of
the ring's next edge for the last PV of an edge. -/
def wirePVs (isects : List Isect) (pvs : List (List (List PseudoVtx))) :
    Option (List (List (List PseudoVtx))) :=
  pvs.mapM (fun ringList =>
    (List.range ringList.length).mapM (fun j => do
      let edgeList ← ringList.get? j
      (List.range edgeList.length).mapM (fun k => do
        let pv ← edgeList.get? k
        let coordToFind ←
          if k = edgeList.length - 1 then do
            let nextList ← ringList.get? ((mod ((j : ℤ) + 1) ((ringList.length : ℕ) : ℤ)).toNat)
            let firstPV ← nextList.get? 0
            pure firstPV.coord
          else do
            let nxt ← edgeList.get? (k + 1)
            pure nxt.coord
        let idx ← findIsectIdx isects coordToFind
        pure { pv with nxtIsectAlongEdgeIn := some idx })))

/-- Port the PVs' next-intersection knowledge to the intersections (lines
247-279): ring-vertex intersections (index < numvertices) always receive it
in `nxtIsectAlongRingAndEdge2`; others according to which labelled edge
matches the PV's incoming edge. -/
def wireIsects (numvertices : ℕ) (pvs : List (List (List PseudoVtx)))
    (isects : List Isect) : Option (List Isect) :=
  (pvs.flatten.flatten).foldlM (fun isectsAcc pv => do
    let l ← findIsectIdx isectsAcc pv.coord
    let it ← isectsAcc.get? l
    let it' :=
      if l < numvertices then
        { it with nxtIsectAlongRingAndEdge2 := pv.nxtIsectAlongEdgeIn }
      else if it.ringAndEdge1 = pv.ringAndEdgeIn then
        { it with nxtIsectAlongRingAndEdge1 := pv.nxtIsectAlongEdgeIn }
      else
        { it with nxtIsectAlongRingAndEdge2 := pv.nxtIsectAlongEdgeIn }
    pure (isectsAcc.set l it')) isects

/-- The whole graph construction (lines 139-281), producing the wired
intersection list. -/
def buildGraph (rings : List (List Coord)) (records : List IsectRecord) :
    Option (List Isect) := do
  let st ← addIsectRecords (initialPseudoVtxList rings) (initialIsectList rings) records
  let pvs ← wirePVs st.2 (sortPVs st.1)
  wireIsects (numverticesOf rings) pvs st.2

/-! ## JS coercion of a position array to a string

The seed-queue comparator (src/src/index.ts lines 326-328) evaluates
`isectList[a.isect].coord > isectList[b.isect].coord` on two `Position`
*arrays*.  JS relational operators coerce arrays to strings
(`[x, y]` becomes `x.toString() + "," + y.toString()`) and then compare
the strings lexicographically by UTF-16 code units.  Strings are modelled
as their code-unit sequences (`List ℕ`: digits are 48-57, `-` is 45, `.`
is 46, `,` is 44).  Number `toString` is modelled in its plain-decimal
range (JS switches to exponent notation only below 1e-6 and at or above
1e21, far from the claims' inputs); fractional expansions are produced
digit by digit with ample fuel (a JS double's exact expansion has fewer
than 1100 digits). -/

/-- Code units of the decimal digits of a natural number. -/
def natDigitCodesGo : ℕ → ℕ → List ℕ
  | 0, _ => []
  | fuel + 1, n => if n < 10 then [48 + n] else natDigitCodesGo fuel (n / 10) ++ [48 + n % 10]

/-- Code units of the decimal digits of a natural number. -/
def natDigitCodes (n : ℕ) : List ℕ := natDigitCodesGo (n + 1) n

/-- Code units of the decimal digits of the fractional part of `r / d`
(`0 ≤ r < d`). -/
def fracDigitCodes : ℕ → ℤ → ℤ → List ℕ
  | 0, _, _ => []
  | fuel + 1, r, d =>
    if r = 0 then []
    else (48 + ((r * 10) / d).toNat) :: fracDigitCodes fuel ((r * 10) % d) d

/-- Code units of the decimal string of the nonnegative value `n / d`. -/
def decCodesNN (n d : ℤ) : List ℕ :=
  let ip := n / d
  let r := n % d
  if r = 0 then natDigitCodes ip.toNat
  else natDigitCodes ip.toNat ++ 46 :: fracDigitCodes 1200 r d

/-- JS `Number.prototype.toString` of a `Q` value (plain-decimal range),
as code units. -/
def jsNumCodes (a : Q) : List ℕ :=
  if a.num < 0 then 45 :: decCodesNN (-a.num) a.den else decCodesNN a.num a.den

/-- JS string coercion of a position `[x, y]`, as code units. -/
def coordCodes (c : Coord) : List ℕ := jsNumCodes c.1 ++ 44 :: jsNumCodes c.2

/-- JS `s < t` on strings: lexicographic comparison of code units. -/
def jsCodesLt : List ℕ → List ℕ → Bool
  | [], [] => false
  | [], _ :: _ => true
  | _ :: _, [] => false
  | a :: s, b :: t => if a < b then true else if b < a then false else jsCodesLt s t

/-- JS `s > t` on strings. -/
def jsStrGt (s t : List ℕ) : Bool := jsCodesLt t s

/-! ## Winding seeder (src/src/index.ts lines 283-330) -/

/-- The left-most scan for one ring (lines 289-295): over the ring's
contiguous block `[base, base+cnt)` of ring-vertex intersections, keep the
first index whose x-coordinate is strictly smaller than the running
candidate's.  Ties on x keep the earlier index; the y-coordinate is never
inspected. -/
def leftIsectScan (isects : List Isect) (base cnt : ℕ) : ℕ :=
  (List.range cnt).foldl
    (fun left k =>
      if Q.ltb ((isects.getD (base + k) default).coord.1)
               ((isects.getD left default).coord.1)
      then base + k else left)
    base

/-- Seed one queue entry for the ring with vertex block `[base, base+cnt)`
(lines 289-323): find the left-most ring-vertex intersection, its successor
along `ringAndEdge2`, its predecessor by a linear scan (defaulting to index
0 like the source's initialisation), and derive the winding from convexity. -/
def seedEntry (isects : List Isect) (base cnt : ℕ) : Option QueueItem := do
  let left := leftIsectScan isects base cnt
  let leftI ← isects.get? left
  let after ← leftI.nxtIsectAlongRingAndEdge2
  let afterI ← isects.get? after
  let before :=
    match isects.findIdx? (fun it =>
      (it.nxtIsectAlongRingAndEdge1 == some left) ||
      (it.nxtIsectAlongRingAndEdge2 == some left)) with
    | some k => k
    | none => 0
  let beforeI ← isects.get? before
  let winding : ℤ := if isConvex beforeI.coord leftI.coord afterI.coord true then 1 else -1
  pure { isect := left, parent := -1, winding := winding }

/-- All seed entries, one per input ring, in ring order (lines 287-324). -/
def seedEntries (rings : List (List Coord)) (isects : List Isect) :
    Option (List QueueItem) :=
  let counts := rings.map (fun r => r.length - 1)
  (List.range rings.length).foldlM (fun acc j => do
    let e ← seedEntry isects ((counts.take j).sum) (counts.getD j 0)
    pure (acc ++ [e])) []

/-- The seed-queue sort (lines 326-328): the comparator returns `-1` iff
`coord a > coord b` under JS string coercion, so the queue ends up in
descending JS-string order and `pop()` takes the entry whose coordinate
string is smallest. -/
def sortSeedQueue (isects : List Isect) (queue : List QueueItem) : List QueueItem :=
  jsSort (fun a b =>
    jsStrGt (coordCodes ((isects.getD a.isect default).coord))
            (coordCodes ((isects.getD b.isect default).coord))) queue

/-! ## Walker (src/src/index.ts lines 332-519) -/

/-- An output ring feature with its properties.  (The source also stores an
`index` property equal to the ring's position, which nothing reads; it is
omitted.) -/
structure OutFeat where
  coords : List Coord
  parent : ℤ
  winding : ℤ
  netWinding : Option ℤ := none
deriving DecidableEq

instance : Inhabited OutFeat := ⟨⟨[], -1, 1, none⟩⟩

/-- Remove the first queue entry referencing intersection `n`, if any
(lines 393-404). -/
def removeFirstIsect : List QueueItem → ℕ → List QueueItem
  | [], _ => []
  | q :: t, n => if q.isect = n then t else q :: removeFirstIsect t n

/-- One walk (the inner while loop, lines 377-496), with fuel.  State:
the intersection list (whose walkable flags are being cleared), the queue,
the walk's start coordinate, the index `currentOutputRing`, the popped
parent and winding, `currentIsect`, `walkingRingAndEdge`, `nxtIsect`, and
the accumulated ring coordinates.  Returns the final intersection list,
queue and closed ring; `none` models a JS throw (an unresolved
next-intersection) or divergence (fuel). -/
def walkLoop : ℕ → List Isect → List QueueItem → Coord → ℕ → ℤ → ℤ → ℕ →
    (ℕ × ℕ) → ℕ → List Coord → Option (List Isect × List QueueItem × List Coord)
  | 0, _, _, _, _, _, _, _, _, _, _ => none
  | fuel + 1, isects, queue, startCoord, curRing, par, wind, cur, walking, nxt, acc => do
    let nxtI ← isects.get? nxt
    if coordEq startCoord nxtI.coord then
      pure (isects, queue, acc ++ [nxtI.coord])
    else
      let acc' := acc ++ [nxtI.coord]
      let queue' := removeFirstIsect queue nxt
      let curI ← isects.get? cur
      if walking = nxtI.ringAndEdge1 then
        let isects' := isects.set nxt { nxtI with ringAndEdge2Walkable := false }
        let queue'' ←
          if nxtI.ringAndEdge1Walkable then do
            let n2 ← nxtI.nxtIsectAlongRingAndEdge2
            let n2I ← isects'.get? n2
            let pushing : QueueItem :=
              if isConvex curI.coord nxtI.coord n2I.coord (decide (wind = 1))
              then { isect := nxt, parent := par, winding := -wind }
              else { isect := nxt, parent := (curRing : ℤ), winding := wind }
            pure (queue' ++ [pushing])
          else pure queue'
        let nxt' ← nxtI.nxtIsectAlongRingAndEdge2
        walkLoop fuel isects' queue'' startCoord curRing par wind nxt nxtI.ringAndEdge2 nxt' acc'
      else
        let isects' := isects.set nxt { nxtI with ringAndEdge1Walkable := false }
        let queue'' ←
          if nxtI.ringAndEdge2Walkable then do
            let n1 ← nxtI.nxtIsectAlongRingAndEdge1
            let n1I ← isects'.get? n1
            let pushing : QueueItem :=
              if isConvex curI.coord nxtI.coord n1I.coord (decide (wind = 1))
              then { isect := nxt, parent := par, winding := -wind }
              else { isect := nxt, parent := (curRing : ℤ), winding := wind }
            pure (queue' ++ [pushing])
          else pure queue'
        let nxt' ← nxtI.nxtIsectAlongRingAndEdge1
        walkLoop fuel isects' queue'' startCoord curRing par wind nxt nxtI.ringAndEdge1 nxt' acc'

/-- The queue-driven outer loop (lines 336-519): pop the last queue entry,
set up the walk direction (edge1 if its walkable flag is set, else edge2),
run the walk, emit the closed output ring, repeat until the queue is
empty. -/
def walkerLoop : ℕ → ℕ → List Isect → List QueueItem → List OutFeat →
    Option (List OutFeat)
  | 0, _, _, _, _ => none
  | fuel + 1, innerFuel, isects, queue, outs =>
    match queue.getLast? with
    | none => pure outs
    | some popped => do
      let queue' := queue.dropLast
      let startI ← isects.get? popped.isect
      let wn ←
        if startI.ringAndEdge1Walkable then do
          let n ← startI.nxtIsectAlongRingAndEdge1
          pure (startI.ringAndEdge1, n)
        else do
          let n ← startI.nxtIsectAlongRingAndEdge2
          pure (startI.ringAndEdge2, n)
      let res ← walkLoop innerFuel isects queue' startI.coord outs.length
        popped.parent popped.winding popped.isect wn.1 wn.2 [startI.coord]
      walkerLoop fuel innerFuel res.1 res.2.1
        (outs ++ [{ coords := res.2.2, parent := popped.parent,
                    winding := popped.winding, netWinding := none }])

/-! ## Parent / net-winding post-processor (src/src/index.ts lines 645-720) -/

/-- A JS number, or `Infinity`: the type of the `parentArea` constant of
`determineParents`. -/
inductive JSNum where
  | fin (q : Q)
  | inf
deriving DecidableEq

/-- JS `<` with a possible `Infinity` operand. -/
def JSNum.ltb : JSNum → JSNum → Bool
  | .fin a, .fin b => Q.ltb a b
  | .fin _, .inf => true
  | .inf, _ => false

/-- `determineParents` (lines 645-694), parameterised by the two external
turf collaborators: `pip p ring` is `booleanPointInPolygon(point(p), ring,
{ignoreBoundary: true})` (strict interior, per the spec §6 contract) and
`area ring` is `area(ring)` (a non-negative scalar).  Faithful to the
source, `parentArea` is the *constant* `Infinity` (line 663): the guard
`area(output.features[j]) < parentArea` compares against `Infinity` on
every iteration, so every containing ring `j` overwrites `parent`, and the
last containing ring in index order wins. -/
def determineParents (pip : Coord → List Coord → Bool) (area : List Coord → Q)
    (feats : List OutFeat) : List OutFeat :=
  let featuresWithoutParent :=
    (List.range feats.length).filter (fun i => (feats.getD i default).parent == -1)
  if 1 < featuresWithoutParent.length then
    featuresWithoutParent.foldl (fun fs c =>
      let parentArea : JSNum := .inf
      let parentVar := (List.range fs.length).foldl (fun pv j =>
        if c = j then pv
        else if pip ((fs.getD c default).coords.headD (0, 0)) (fs.getD j default).coords then
          (if JSNum.ltb (.fin (area (fs.getD j default).coords)) parentArea
           then (j : ℤ) else pv)
        else pv) (-1 : ℤ)
      fs.set c { fs.getD c default with parent := parentVar }) feats
  else feats

/-- One pass of `setNetWindingOfChildren` (lines 707-720) over an index
list `idxs`: each feature whose `parent` equals `par` receives
`netWinding = parNet + winding` and has its own children processed by the
recursive continuation `recur` before the pass continues. -/
def setNetWindingOfChildrenGo
    (recur : ℤ → ℤ → List OutFeat → Option (List OutFeat)) :
    List ℕ → ℤ → ℤ → List OutFeat → Option (List OutFeat)
  | [], _, _, feats => some feats
  | i :: rest, par, parNet, feats =>
    match feats.get? i with
    | none => setNetWindingOfChildrenGo recur rest par parNet feats
    | some f =>
      if f.parent = par then
        let netW := parNet + f.winding
        let feats' := feats.set i { f with netWinding := some netW }
        match recur (i : ℤ) netW feats' with
        | none => none
        | some feats'' => setNetWindingOfChildrenGo recur rest par parNet feats''
      else setNetWindingOfChildrenGo recur rest par parNet feats

/-- `setNetWindingOfChildren` (lines 707-720), fuelled by recursion depth:
`none` models the stack overflow JS would hit on a cyclic parent relation.
(The fuel bounds the nesting depth of passes; under an acyclic parent
relation the nesting is at most the number of features and the generous
fuel used by `setNetWinding` is never exhausted.) -/
def setNetWindingOfChildren : ℕ → ℤ → ℤ → List OutFeat → Option (List OutFeat)
  | 0, _, _, _ => none
  | fuel + 1, par, parNet, feats =>
    setNetWindingOfChildrenGo (setNetWindingOfChildren fuel)
      (List.range feats.length) par parNet feats

/-- `setNetWinding` (lines 696-705): roots (`parent = -1`) get
`netWinding = winding` (`= 0 + winding`) and their descendants are set
top-down; the top-level loop is the instance `par = -1`, `parNet = 0` of
the child pass. -/
def setNetWinding (feats : List OutFeat) : Option (List OutFeat) :=
  setNetWindingOfChildren (feats.length + 1) (-1) 0 feats

/-! ## The whole engine -/

/-- `simplepolygon` (src/src/index.ts lines 39-533), parameterised by the
external collaborators: the gpsi `records` (spec §4.2) and turf's `pip`
and `area` (spec §6).  The duplicate-vertex guard is modelled separately
(`duplicateCheckThrows`): it compares position objects by reference and
never fires on inputs whose position objects are pairwise distinct (see
C1), so it does not appear on this value-level path. -/
def simplepolygon {α : Type} (pip : Coord → List Coord → Bool)
    (area : List Coord → Q) (records : List IsectRecord) (f : Feature α) :
    Option (List OutFeat) :=
  if f.ftype = "Feature" ∧ f.gtype = "Polygon" then
    let rings := (processInput f).coordinates
    if records.length = 0 then
      setNetWinding (determineParents pip area
        (rings.map (fun r =>
          { coords := r, parent := -1, winding := windingOfRing r, netWinding := none })))
    else do
      let isects ← buildGraph rings records
      let seeds ← seedEntries rings isects
      let queue := sortSeedQueue isects seeds
      let outs ← walkerLoop (queue.length + isects.length + 1)
        (2 * isects.length + 2) isects queue []
      setNetWinding (determineParents pip area outs)
  else none


/-- The `parent` field of slot `i` (out-of-range slots read the default,
whose parent is `-1`). -/
def parOf (feats : List OutFeat) (i : ℕ) : ℤ := (feats.getD i default).parent

/-- The `winding` field of slot `i`. -/
def wOf (feats : List OutFeat) (i : ℕ) : ℤ := (feats.getD i default).winding

/-- The parent relation is in-range and acyclic, witnessed by a rank
function that strictly decreases from child to parent. -/
def RankOK (feats : List OutFeat) (rank : ℕ → ℕ) : Prop :=
  ∀ i, i < feats.length → 0 ≤ parOf feats i →
    (parOf feats i).toNat < feats.length ∧ rank ((parOf feats i).toNat) < rank i

/-- Parent-chain data relative to a target parent value `par`: follow
parent links from `i`; on reaching a node whose parent equals `par`,
return the sum of the windings along the chain (including both ends), the
last node of the chain (the direct child of `par` the chain passes
through) and the chain length; `none` if the walk leaves `[0, length)`,
hits `-1` before `par`, or exhausts the fuel.  Only the `parent` and
`winding` fields are inspected. -/
def chainData (feats : List OutFeat) : ℕ → ℤ → ℕ → Option (ℤ × ℕ × ℕ)
  | 0, _, _ => none
  | fuel + 1, par, i =>
    if parOf feats i = par then some (wOf feats i, i, 1)
    else if parOf feats i < 0 then none
    else if feats.length ≤ (parOf feats i).toNat then none
    else (chainData feats fuel par (parOf feats i).toNat).map
      (fun sc => (sc.1 + wOf feats i, sc.2.1, sc.2.2 + 1))

/-! ## Concrete scenarios

The gpsi records below are the contract output (spec §4.2) for each
scenario's strict interior crossings: two records per crossing, one per
incoming-edge viewpoint, fractional parameters along each edge, `unique`
on exactly one of the two. -/

/-- The JS number 0.5. -/
def half : Q := Q.mk' 1 2

/-- The figure-eight input ring `[[0,0],[2,0],[0,2],[2,2],[0,0]]`. -/
def fig8Ring : List Coord := [((0 : Q), (0 : Q)), (2, 0), (0, 2), (2, 2), (0, 0)]

/-- The figure-eight input feature. -/
def fig8Feature : Feature ℕ where
  ftype := "Feature"
  properties := 0
  gtype := "Polygon"
  coordinates := [fig8Ring]

/-- gpsi records for the figure-eight (or for any input whose ring 0 is the
figure-eight and whose other rings add no crossings): edges 1 and 3 of ring
0 cross at `(1,1)`, halfway along both. -/
def fig8Records : List IsectRecord :=
  [{ isect := ((1 : Q), (1 : Q)), ring0 := 0, edge0 := 1, start0 := (2, 0),
     end0 := (0, 2), frac0 := half,
     ring1 := 0, edge1 := 3, start1 := (2, 2), end1 := (0, 0), frac1 := half,
     unique := true },
   { isect := ((1 : Q), (1 : Q)), ring0 := 0, edge0 := 3, start0 := (2, 2),
     end0 := (0, 0), frac0 := half,
     ring1 := 0, edge1 := 1, start1 := (2, 0), end1 := (0, 2), frac1 := half,
     unique := false }]

/-- The walker's output on the figure-eight, before post-processing. -/
def fig8Walked : List OutFeat :=
  [{ coords := [((0 : Q), (0 : Q)), (2, 0), (1, 1), (0, 0)],
     parent := -1, winding := 1, netWinding := none },
   { coords := [((1 : Q), (1 : Q)), (0, 2), (2, 2), (1, 1)],
     parent := -1, winding := -1, netWinding := none }]

/-- A far-away simple square ring, disjoint from the figure-eight. -/
def farRing : List Coord := [((10 : Q), (10 : Q)), (11, 10), (11, 11), (10, 11), (10, 10)]

/-- Two input rings: the figure-eight and the far square (for C3). -/
def c3rings : List (List Coord) := [fig8Ring, farRing]

/-- A self-intersecting ring with two vertices sharing the minimal
x-coordinate: `[[0,2],[2,0],[2,2],[0,0],[0,2]]`; vertex 0 is `(0,2)` and
vertex 3 is `(0,0)` (for C4). -/
def c4Ring : List Coord := [((0 : Q), (2 : Q)), (2, 0), (2, 2), (0, 0), (0, 2)]

/-- gpsi records for `c4Ring`: edges 0 and 2 cross at `(1,1)`. -/
def c4Records : List IsectRecord :=
  [{ isect := ((1 : Q), (1 : Q)), ring0 := 0, edge0 := 0, start0 := (0, 2),
     end0 := (2, 0), frac0 := half,
     ring1 := 0, edge1 := 2, start1 := (2, 2), end1 := (0, 0), frac1 := half,
     unique := true },
   { isect := ((1 : Q), (1 : Q)), ring0 := 0, edge0 := 2, start0 := (2, 2),
     end0 := (0, 0), frac0 := half,
     ring1 := 0, edge1 := 0, start1 := (0, 2), end1 := (2, 0), frac1 := half,
     unique := false }]

/-! ## Concrete external collaborators for the nested-squares scenario

`bboxStrictPip` and `areaAbs` are modelled from the spec's collaborator
contracts (§6): a strict-interior point-in-polygon test and a non-negative
area.  On the axis-aligned convex rectangles used below, strict bounding-box
membership coincides with strict interior membership, and the absolute
shoelace sum (twice the planar area) orders rings identically to any
monotone area measure. -/

def qmin (a b : Q) : Q := if Q.ltb a b then a else b

def qmax (a b : Q) : Q := if Q.ltb a b then b else a

/-- Modelled from the spec: the `booleanPointInPolygon(point, ring,
{ignoreBoundary: true})` collaborator (strict interior), realised as strict
bounding-box membership -- exact for the axis-aligned rectangles of the
concrete scenarios. -/
def bboxStrictPip (p : Coord) (ring : List Coord) : Bool :=
  match ring with
  | [] => false
  | c :: rest =>
    let xs := (c :: rest).map Prod.fst
    let ys := (c :: rest).map Prod.snd
    Q.ltb (xs.foldl qmin c.1) p.1 && Q.ltb p.1 (xs.foldl qmax c.1) &&
    Q.ltb (ys.foldl qmin c.2) p.2 && Q.ltb p.2 (ys.foldl qmax c.2)

/-- Absolute value of a JS number. -/
def Q.abs (a : Q) : Q := if Q.ltb a 0 then Q.neg a else a

/-- The shoelace sum of a closed ring (twice its signed planar area). -/
def shoelace (ring : List Coord) : Q :=
  ((ring.zip (ring.drop 1)).map (fun pq =>
      Q.sub (Q.mul pq.1.1 pq.2.2) (Q.mul pq.2.1 pq.1.2))).foldl Q.add 0

/-- Modelled from the spec: the `area(ring)` collaborator (a non-negative
scalar, monotone in the enclosed region), realised as the absolute shoelace
sum. -/
def areaAbs (ring : List Coord) : Q := Q.abs (shoelace ring)

/-- A small square strictly inside `smallRing` (ring 0 of the nested
scenario). -/
def tinyRing : List Coord := [((4 : Q), (4 : Q)), (5, 4), (5, 5), (4, 5), (4, 4)]

/-- A middle square strictly containing `tinyRing` and strictly inside
`bigRing` (ring 1 of the nested scenario). -/
def smallRing : List Coord := [((2 : Q), (2 : Q)), (8, 2), (8, 8), (2, 8), (2, 2)]

/-- The outermost square of the nested scenario (ring 2). -/
def bigRing : List Coord := [((0 : Q), (0 : Q)), (10, 0), (10, 10), (0, 10), (0, 0)]

/-- Three disjoint nested squares, ordered inside-out, as one polygon
feature (for C2).  Its rings have no intersections, so gpsi reports no
records and decompose takes the fast path. -/
def nestedFeature : Feature ℕ where
  ftype := "Feature"
  properties := 0
  gtype := "Polygon"
  coordinates := [tinyRing, smallRing, bigRing]

/-- The `netWinding` field of slot `i` (out-of-range slots read the
default). -/
def netOf (feats : List OutFeat) (i : ℕ) : Option ℤ := (feats.getD i default).netWinding

/-- A two-ring forest (a root and one child of it) exercising the
net-winding recurrence. -/
def c6feats : List OutFeat :=
  [{ coords := [((0 : Q), (0 : Q))], parent := -1, winding := 1, netWinding := none },
   { coords := [((0 : Q), (0 : Q))], parent := 0, winding := -1, netWinding := none }]


/-- Number of occurrences of coordinate `c` among the coordinates of the
output rings: the "output-ring vertex visits" of the intersection at `c`. -/
def coordVisits (c : Coord) (outs : List OutFeat) : ℕ :=
  (outs.map (fun f => f.coords.countP (fun p => coordEq p c))).sum

/-- The walkable flags of intersection-list state `b` are dominated by
those of state `a`: `b` has the same length and coordinates, and every
flag set in `b` was already set in `a` (flags are only ever cleared, never
set). -/
def IsectsMono (a b : List Isect) : Prop :=
  b.length = a.length ∧ ∀ j,
    (b.get? j).map Isect.coord = (a.get? j).map Isect.coord ∧
    ((b.get? j).map Isect.ringAndEdge1Walkable = some true →
      (a.get? j).map Isect.ringAndEdge1Walkable = some true) ∧
    ((b.get? j).map Isect.ringAndEdge2Walkable = some true →
      (a.get? j).map Isect.ringAndEdge2Walkable = some true)

/-- A one-intersection list whose walk closes immediately (for the walk
lemma's witness). -/
def c8isects : List Isect :=
  [{ coord := ((0 : Q), (0 : Q)), ringAndEdge1 := (0, 0), ringAndEdge2 := (0, 1),
     ringAndEdge1Walkable := true, ringAndEdge2Walkable := true,
     nxtIsectAlongRingAndEdge1 := some 0, nxtIsectAlongRingAndEdge2 := some 0 }]


/-! # Theorems -/

/-- On a collinear triple the discriminant is zero, so `d >= 0` holds and
`isConvex` returns its `righthanded` argument (helper for C10). -/
theorem isConvex_collinear (p0 p1 p2 : Coord) (rh : Bool)
    (h : collinearD p0 p1 p2) : isConvex p0 p1 p2 rh = rh := by
  unfold collinearD signedAreaD at h
  unfold isConvex Q.leb
  simp only [show (0 : Q).num = 0 from rfl, show (0 : Q).den = 1 from rfl]
  rw [h]
  simp
/-- C10: for every triple of points with signed triangle area exactly zero,
`isConvex` returns its `righthanded` argument; consequently, a ring whose
extremal (smallest-x) vertex triple is collinear gets winding `+1` from
`windingOfRing`. -/
theorem c10_isConvex_collinear_winding (p0 p1 p2 : Coord) (rh : Bool)
    (ring : List Coord)
    (h : collinearD p0 p1 p2)
    (hring : collinearD
        (ring.getD ((mod ((leftVtxScan ring : ℤ) - 1)
          ((ring.length - 1 : ℕ) : ℤ)).toNat) (0, 0))
        (ring.getD (leftVtxScan ring) (0, 0))
        (ring.getD ((mod ((leftVtxScan ring : ℤ) + 1)
          ((ring.length - 1 : ℕ) : ℤ)).toNat) (0, 0))) :
    isConvex p0 p1 p2 rh = rh ∧ windingOfRing ring = 1 := by
  refine ⟨isConvex_collinear p0 p1 p2 rh h, ?_⟩
  simp only [windingOfRing]
  rw [isConvex_collinear _ _ _ _ hring]
  simp
/-- Witness for C10 at a concrete collinear triple and the concrete
degenerate ring `[[0,0],[0,1],[0,2],[0,0]]`, whose extremal triple is
collinear; `windingOfRing` yields `+1` there. -/
theorem c10_witness :
    (collinearD (0, 0) (0, 1) (0, 2) ∧
      collinearD
        (([((0 : Q), (0 : Q)), (0, 1), (0, 2), (0, 0)] :
            List Coord).getD ((mod ((leftVtxScan [((0 : Q), (0 : Q)), (0, 1), (0, 2), (0, 0)] : ℤ) - 1)
          ((([((0 : Q), (0 : Q)), (0, 1), (0, 2), (0, 0)] : List Coord).length - 1 : ℕ) : ℤ)).toNat) (0, 0))
        (([((0 : Q), (0 : Q)), (0, 1), (0, 2), (0, 0)] :
            List Coord).getD (leftVtxScan [((0 : Q), (0 : Q)), (0, 1), (0, 2), (0, 0)]) (0, 0))
        (([((0 : Q), (0 : Q)), (0, 1), (0, 2), (0, 0)] :
            List Coord).getD ((mod ((leftVtxScan [((0 : Q), (0 : Q)), (0, 1), (0, 2), (0, 0)] : ℤ) + 1)
          ((([((0 : Q), (0 : Q)), (0, 1), (0, 2), (0, 0)] : List Coord).length - 1 : ℕ) : ℤ)).toNat) (0, 0))) ∧
    (isConvex (0, 0) (0, 1) (0, 2) false = false ∧
      windingOfRing [((0 : Q), (0 : Q)), (0, 1), (0, 2), (0, 0)] = 1) := by
  refine ⟨⟨by decide, by decide⟩, ?_⟩
  exact c10_isConvex_collinear_winding (0, 0) (0, 1) (0, 2) false
    [((0 : Q), (0 : Q)), (0, 1), (0, 2), (0, 0)] (by decide) (by decide)
/-- Helper: on any input whose position objects are pairwise distinct (as
is the case for any feature parsed from JSON text), the duplicate-vertex
guard never fires, regardless of the coordinate values. -/
theorem duplicateCheckThrows_eq_false_of_nodup_ids
    (rings : List (List TaggedPos))
    (h : ((verticesOf rings).map Prod.fst).Nodup) :
    duplicateCheckThrows rings = false := by
  unfold duplicateCheckThrows jsSetSize
  rw [List.dedup_eq_self.mpr h, List.length_map]
  simp
/-- C1: the source claims to fail with `InvalidInput` whenever a
non-closing coordinate pair repeats.  Counter-evaluation: the single-ring
input `[[0,0],[2,0],[1,1],[0,2],[1,3],[2,2],[1,1],[0,0]]` (the very
polygon named in the package's own documentation as one the check must
reject), held in pairwise distinct position objects as produced by JSON
parsing, repeats the non-closing coordinate pair `(1,1)` -- yet the guard
does not fire, because `new Set` deduplicates the position objects by
reference. -/
theorem c1_duplicate_vertex_check_misses_value_duplicates :
    hasDupValues ((verticesOf
        [[(0, ((0 : Q), (0 : Q))), (1, (2, 0)), (2, (1, 1)), (3, (0, 2)),
          (4, (1, 3)), (5, (2, 2)), (6, (1, 1)), (7, (0, 0))]]).map Prod.snd) = true ∧
    duplicateCheckThrows
        [[(0, ((0 : Q), (0 : Q))), (1, (2, 0)), (2, (1, 1)), (3, (0, 2)),
          (4, (1, 3)), (5, (2, 2)), (6, (1, 1)), (7, (0, 0))]] = false := by
  constructor
  · decide
  · exact duplicateCheckThrows_eq_false_of_nodup_ids _ (by decide)
/-- C9: `decompose` mutates its input feature in place: every ring whose
first and last vertex differ gets its first vertex appended, before any
other processing; all other fields of the feature are unchanged. -/
theorem c9_processInput_frame {α : Type} (f : Feature α) :
    (processInput f).ftype = f.ftype ∧
    (processInput f).properties = f.properties ∧
    (processInput f).gtype = f.gtype ∧
    (processInput f).coordinates = f.coordinates.map closeRing ∧
    (∀ c rest, coordEq c ((c :: rest).getLast (by simp)) = false →
      closeRing (c :: rest) = (c :: rest) ++ [c]) ∧
    (∀ c rest, coordEq c ((c :: rest).getLast (by simp)) = true →
      closeRing (c :: rest) = c :: rest) := by
  refine ⟨rfl, rfl, rfl, rfl, ?_, ?_⟩
  · intro c rest h
    simp [closeRing, h]
  · intro c rest h
    simp [closeRing, h]
/-- C7: on the figure-eight input `[[0,0],[2,0],[0,2],[2,2],[0,0]]`,
decompose returns exactly the two rings `[[0,0],[2,0],[1,1],[0,0]]`
(winding `+1`) and `[[1,1],[0,2],[2,2],[1,1]]` (winding `-1`), both with
`parent = -1` and `netWinding` equal to their winding.  The two hypotheses
record the geometric answers of the strict-interior point-in-polygon
collaborator on the two queries the post-processor makes: `(0,0)` lies
outside the second output ring, and `(1,1)` lies on the boundary (a vertex)
of the first, which `ignoreBoundary` excludes. -/
theorem c7_figure_eight (pip : Coord → List Coord → Bool) (area : List Coord → Q)
    (h1 : pip ((0 : Q), (0 : Q)) [((1 : Q), (1 : Q)), (0, 2), (2, 2), (1, 1)] = false)
    (h2 : pip ((1 : Q), (1 : Q)) [((0 : Q), (0 : Q)), (2, 0), (1, 1), (0, 0)] = false) :
    simplepolygon pip area fig8Records fig8Feature =
      some [{ coords := [((0 : Q), (0 : Q)), (2, 0), (1, 1), (0, 0)],
              parent := -1, winding := 1, netWinding := some 1 },
            { coords := [((1 : Q), (1 : Q)), (0, 2), (2, 2), (1, 1)],
              parent := -1, winding := -1, netWinding := some (-1) }] := by
  have hmid : simplepolygon pip area fig8Records fig8Feature
      = setNetWinding (determineParents pip area fig8Walked) := rfl
  rw [hmid]
  have hdp : determineParents pip area fig8Walked = fig8Walked := by
    simp [determineParents, fig8Walked, h1, h2, List.range_succ,
      -Prod.mk_zero_zero, -Prod.mk_one_one]
  rw [hdp]
  rfl

/-- Witness for C7, instantiating the point-in-polygon collaborator with
the constantly-false predicate (which agrees with the strict-interior test
on the two queries made). -/
theorem c7_witness :
    simplepolygon (fun _ _ => false) (fun _ => (0 : Q)) fig8Records fig8Feature =
      some [{ coords := [((0 : Q), (0 : Q)), (2, 0), (1, 1), (0, 0)],
              parent := -1, winding := 1, netWinding := some 1 },
            { coords := [((1 : Q), (1 : Q)), (0, 2), (2, 2), (1, 1)],
              parent := -1, winding := -1, netWinding := some (-1) }] :=
  c7_figure_eight (fun _ _ => false) (fun _ => (0 : Q)) rfl rfl

/-- C3 counterexample: on the two-ring input `[fig8Ring, farRing]` (one
crossing, inside ring 0), the model's seed queue holds entries at
coordinates `(0,0)` (ring 0) and `(10,10)` (ring 1); after the sort, the
entry popped first (the queue's last element) sits at `(0,0)`, whose
x-coordinate `0` is *not* the largest (`10` is): the claim that the
largest-x entry pops first is false on the code.  (The code comment says
the opposite of the claim: the left-most entry must pop first, to work
from the outside in.) -/
theorem c3_counterexample :
    (((buildGraph c3rings fig8Records).bind (fun isects =>
        (seedEntries c3rings isects).map (fun s =>
          ((sortSeedQueue isects s).getLast?.map
             (fun q => (isects.getD q.isect default).coord),
           s.map (fun q => (isects.getD q.isect default).coord))))) =
      some (some ((0 : Q), (0 : Q)),
            [((0 : Q), (0 : Q)), ((10 : Q), (10 : Q))])) ∧
    Q.ltb (0 : Q) (10 : Q) = true := by
  constructor
  · rfl
  · decide

/-- C4 counterexample: on `c4Ring = [[0,2],[2,0],[2,2],[0,0],[0,2]]` the
minimal x-coordinate `0` is attained by vertex 0 `(0,2)` and vertex 3
`(0,0)`.  The seeder picks the intersection at `(0,2)` -- the first one in
ring order -- although `(0,0)` has the smaller y-coordinate, refuting the
claimed smallest-y tie-break. -/
theorem c4_counterexample :
    ((buildGraph [c4Ring] c4Records).bind (fun isects =>
        (seedEntries [c4Ring] isects).map (fun s =>
          s.map (fun q => (isects.getD q.isect default).coord))) =
      some [((0 : Q), (2 : Q))]) ∧
    c4Ring.getD 3 (0, 0) = ((0 : Q), (0 : Q)) ∧
    Q.ltb (0 : Q) (2 : Q) = true := by
  refine ⟨rfl, by decide, by decide⟩

/-- C2: on the nested-squares feature (three disjoint rings, fast path),
ring 0's representative point `(4,4)` lies strictly inside both ring 1 and
ring 2, and ring 1 has strictly smaller area -- yet `determineParents`
assigns ring 0 the parent 2 (the *last* containing ring in index order,
because the `parentArea` minimum tracker is a never-updated `const
Infinity`), not the smallest-area container 1 claimed by the spec. -/
theorem c2_parent_is_last_containing_not_smallest_area :
    simplepolygon bboxStrictPip areaAbs [] nestedFeature =
      some [{ coords := tinyRing, parent := 2, winding := 1, netWinding := some 2 },
            { coords := smallRing, parent := 2, winding := 1, netWinding := some 2 },
            { coords := bigRing, parent := -1, winding := 1, netWinding := some 1 }] ∧
    bboxStrictPip ((4 : Q), (4 : Q)) smallRing = true ∧
    bboxStrictPip ((4 : Q), (4 : Q)) bigRing = true ∧
    Q.ltb (areaAbs smallRing) (areaAbs bigRing) = true := by
  refine ⟨rfl, by decide, by decide, by decide⟩

/-- Witness for C9: a concrete feature with one open ring; the processed
feature has the ring closed and every other field intact. -/
theorem c9_witness :
    processInput openTriangleFeature = closedTriangleFeature := by
  have h := c9_processInput_frame openTriangleFeature
  obtain ⟨-, -, -, h4, h5, -⟩ := h
  have hc : closeRing [((0 : Q), (0 : Q)), (1, 0), (1, 1)] =
      [((0 : Q), (0 : Q)), (1, 0), (1, 1)] ++ [(0, 0)] :=
    h5 (0, 0) [(1, 0), (1, 1)] (by decide)
  simp only [processInput, openTriangleFeature, closedTriangleFeature, List.map, hc]
  rfl

/-! ## Order bridge for `Q` -/

theorem Q.ltb_iff (a b : Q) : Q.ltb a b = true ↔ a.toRat < b.toRat := by
  unfold Q.ltb Q.toRat
  rw [decide_eq_true_eq,
    div_lt_div_iff (by exact_mod_cast a.dpos) (by exact_mod_cast b.dpos)]
  exact_mod_cast Iff.rfl

theorem Q.ltb_eq_false_iff (a b : Q) : Q.ltb a b = false ↔ b.toRat ≤ a.toRat := by
  rw [← not_lt, ← Q.ltb_iff]
  cases h : Q.ltb a b <;> simp

/-! ## The left-most scan (C4) -/

/-- Unfolding of one step of `leftIsectScan`. -/
theorem leftIsectScan_succ (isects : List Isect) (base cnt : ℕ) :
    leftIsectScan isects base (cnt + 1) =
      (if Q.ltb ((isects.getD (base + cnt) default).coord.1)
                ((isects.getD (leftIsectScan isects base cnt) default).coord.1)
       then base + cnt else leftIsectScan isects base cnt) := by
  unfold leftIsectScan
  rw [List.range_succ, List.foldl_append]
  rfl

/-- The scan over `cnt + 1` elements picks the first index of the block
attaining the minimal x-coordinate: it lies in the block, no element of the
block has a strictly smaller x, and every block element strictly before the
pick has a strictly larger x (so ties on x keep the earliest index -- the
y-coordinate plays no role). -/
theorem leftIsectScan_first_min (isects : List Isect) (base : ℕ) :
    ∀ cnt : ℕ,
      (base ≤ leftIsectScan isects base (cnt + 1) ∧
        leftIsectScan isects base (cnt + 1) < base + (cnt + 1)) ∧
      (∀ k, k < cnt + 1 →
        ((isects.getD (leftIsectScan isects base (cnt + 1)) default).coord.1).toRat ≤
          ((isects.getD (base + k) default).coord.1).toRat) ∧
      (∀ j, base ≤ j → j < leftIsectScan isects base (cnt + 1) →
        ((isects.getD (leftIsectScan isects base (cnt + 1)) default).coord.1).toRat <
          ((isects.getD j default).coord.1).toRat) := by
  intro cnt
  induction cnt with
  | zero =>
    have h0 : leftIsectScan isects base 1 = base := by
      unfold leftIsectScan
      rw [show List.range 1 = [0] from rfl]
      simp only [List.foldl_cons, List.foldl_nil, Nat.add_zero, ite_self]
    rw [h0]
    refine ⟨⟨le_rfl, by omega⟩, ?_, ?_⟩
    · intro k hk
      interval_cases k
      simp
    · intro j h1 h2
      omega
  | succ c ih =>
    obtain ⟨⟨hlo, hhi⟩, hmin, hfirst⟩ := ih
    rw [leftIsectScan_succ]
    by_cases hlt : Q.ltb ((isects.getD (base + (c + 1)) default).coord.1)
        ((isects.getD (leftIsectScan isects base (c + 1)) default).coord.1) = true
    · rw [if_pos hlt]
      have hx := (Q.ltb_iff _ _).mp hlt
      refine ⟨⟨by omega, by omega⟩, ?_, ?_⟩
      · intro k hk
        rcases Nat.lt_or_ge k (c + 1) with hk' | hk'
        · exact le_trans (le_of_lt hx) (hmin k hk')
        · have : k = c + 1 := by omega
          subst this
          exact le_rfl
      · intro j h1 h2
        have hk : j - base < c + 1 := by omega
        have := hmin (j - base) hk
        have hjb : base + (j - base) = j := by omega
        rw [hjb] at this
        exact lt_of_lt_of_le hx this
    · rw [if_neg hlt]
      have hx := (Q.ltb_eq_false_iff _ _).mp (by
        cases h : Q.ltb ((isects.getD (base + (c + 1)) default).coord.1)
            ((isects.getD (leftIsectScan isects base (c + 1)) default).coord.1)
        · rfl
        · exact absurd h hlt)
      refine ⟨⟨hlo, by omega⟩, ?_, hfirst⟩
      intro k hk
      rcases Nat.lt_or_ge k (c + 1) with hk' | hk'
      · exact hmin k hk'
      · have : k = c + 1 := by omega
        subst this
        exact hx

/-- C4 (amended): for each input ring, the seeder's scan picks the *first*
ring-vertex intersection of the ring's contiguous block attaining the
smallest x-coordinate; ties between equal x-coordinates are broken by ring
position (the earliest vertex), not by the y-coordinate. -/
theorem c4_first_min_no_y_tiebreak (isects : List Isect) (base cnt : ℕ)
    (h : 0 < cnt) :
    (base ≤ leftIsectScan isects base cnt ∧ leftIsectScan isects base cnt < base + cnt) ∧
    (∀ k, k < cnt →
      ((isects.getD (leftIsectScan isects base cnt) default).coord.1).toRat ≤
        ((isects.getD (base + k) default).coord.1).toRat) ∧
    (∀ j, base ≤ j → j < leftIsectScan isects base cnt →
      ((isects.getD (leftIsectScan isects base cnt) default).coord.1).toRat <
        ((isects.getD j default).coord.1).toRat) := by
  cases cnt with
  | zero => omega
  | succ c => exact leftIsectScan_first_min isects base c

/-! ## The seed-queue sort (C3) -/

theorem jsInsert_perm {α : Type} (lt : α → α → Bool) (a : α) (l : List α) :
    (jsInsert lt a l).Perm (a :: l) := by
  induction l with
  | nil => simp [jsInsert]
  | cons b t ih =>
    unfold jsInsert
    by_cases h : lt a b = true
    · rw [if_pos h]
    · rw [if_neg h]
      exact (ih.cons b).trans (List.Perm.swap a b t)

theorem jsSort_foldl_perm {α : Type} (lt : α → α → Bool) :
    ∀ (l acc : List α), (l.foldl (fun acc a => jsInsert lt a acc) acc).Perm (acc ++ l) := by
  intro l
  induction l with
  | nil => simp
  | cons a t ih =>
    intro acc
    refine (ih (jsInsert lt a acc)).trans ?_
    exact ((jsInsert_perm lt a acc).append_right t).trans List.perm_middle.symm

theorem jsSort_perm {α : Type} (lt : α → α → Bool) (l : List α) :
    (jsSort lt l).Perm l := by
  have := jsSort_foldl_perm lt l []
  simpa [jsSort] using this

theorem jsInsert_pairwise {α : Type} (lt : α → α → Bool) (P : α → α → Prop)
    (hT : ∀ x y z, P x y → P y z → P x z)
    (h1 : ∀ x y, lt x y = true → P x y)
    (h2 : ∀ x y, lt x y = false → P y x)
    (a : α) (l : List α) (hl : l.Pairwise P) :
    (jsInsert lt a l).Pairwise P := by
  induction l with
  | nil => simp [jsInsert]
  | cons b t ih =>
    unfold jsInsert
    by_cases h : lt a b = true
    · rw [if_pos h]
      refine List.Pairwise.cons ?_ hl
      intro x hx
      rcases List.mem_cons.mp hx with rfl | hx
      · exact h1 a x h
      · exact hT a b x (h1 a b h) (List.rel_of_pairwise_cons hl hx)
    · rw [if_neg h]
      refine List.Pairwise.cons ?_ (ih hl.of_cons)
      intro x hx
      have hx' : x ∈ a :: t := (jsInsert_perm lt a t).mem_iff.mp hx
      rcases List.mem_cons.mp hx' with rfl | hx'
      · exact h2 x b (by simpa using h)
      · exact List.rel_of_pairwise_cons hl hx'

theorem jsSort_foldl_pairwise {α : Type} (lt : α → α → Bool) (P : α → α → Prop)
    (hT : ∀ x y z, P x y → P y z → P x z)
    (h1 : ∀ x y, lt x y = true → P x y)
    (h2 : ∀ x y, lt x y = false → P y x) :
    ∀ (l acc : List α), acc.Pairwise P →
      (l.foldl (fun acc a => jsInsert lt a acc) acc).Pairwise P := by
  intro l
  induction l with
  | nil => intro acc h; exact h
  | cons a t ih =>
    intro acc h
    exact ih (jsInsert lt a acc) (jsInsert_pairwise lt P hT h1 h2 a acc h)

theorem jsSort_pairwise {α : Type} (lt : α → α → Bool) (P : α → α → Prop)
    (hT : ∀ x y z, P x y → P y z → P x z)
    (h1 : ∀ x y, lt x y = true → P x y)
    (h2 : ∀ x y, lt x y = false → P y x) (l : List α) :
    (jsSort lt l).Pairwise P :=
  jsSort_foldl_pairwise lt P hT h1 h2 l [] List.Pairwise.nil

theorem pairwise_getLast? {α : Type} {P : α → α → Prop} :
    ∀ {l : List α}, l.Pairwise P → ∀ {z : α}, l.getLast? = some z →
      ∀ x ∈ l, x = z ∨ P x z := by
  intro l
  induction l with
  | nil => intro _ z hz; cases hz
  | cons a t ih =>
    intro hl z hz x hx
    cases t with
    | nil =>
      simp only [List.getLast?_singleton, Option.some.injEq] at hz
      subst hz
      rcases List.mem_singleton.mp hx with rfl
      exact Or.inl rfl
    | cons b t' =>
      have hz' : (b :: t').getLast? = some z := by
        rw [← hz, List.getLast?_cons_cons]
      rcases List.mem_cons.mp hx with rfl | hx'
      · right
        have hzmem : z ∈ b :: t' := by
          obtain ⟨hne, hzl⟩ := List.mem_getLast?_eq_getLast
            (l := b :: t') (x := z) (by rw [Option.mem_def, hz'])
          rw [hzl]
          exact List.getLast_mem hne
        exact List.rel_of_pairwise_cons hl hzmem
      · exact ih hl.of_cons hz' x hx'

/-! ## The JS code-unit order -/

theorem jsCodesLt_irrefl : ∀ s, jsCodesLt s s = false := by
  intro s
  induction s with
  | nil => rfl
  | cons a t ih => simp [jsCodesLt, ih]

theorem jsCodesLt_asymm : ∀ s t, jsCodesLt s t = true → jsCodesLt t s = false := by
  intro s
  induction s with
  | nil =>
    intro t ht
    cases t with
    | nil => simp [jsCodesLt] at ht
    | cons b t' => rfl
  | cons a s' ih =>
    intro t ht
    cases t with
    | nil => simp [jsCodesLt] at ht
    | cons b t' =>
      simp only [jsCodesLt] at ht ⊢
      by_cases hab : a < b
      · have : ¬ b < a := by omega
        simp [this, hab]
      · by_cases hba : b < a
        · simp [hab, hba] at ht
        · simp only [hab, hba, if_false] at ht ⊢
          simp [ih t' ht]

theorem jsCodesLt_step : ∀ s t u, jsCodesLt s u = true →
    jsCodesLt s t = true ∨ jsCodesLt t u = true := by
  intro s
  induction s with
  | nil =>
    intro t u hsu
    cases u with
    | nil => simp [jsCodesLt] at hsu
    | cons c u' =>
      cases t with
      | nil => right; exact hsu
      | cons b t' => left; rfl
  | cons a s' ih =>
    intro t u hsu
    cases u with
    | nil => simp [jsCodesLt] at hsu
    | cons c u' =>
      cases t with
      | nil => right; rfl
      | cons b t' =>
        simp only [jsCodesLt] at hsu ⊢
        by_cases hac : a < c
        · by_cases hab : a < b
          · left
            simp [hab]
          · right
            have hbc : b < c := by omega
            simp [hbc]
        · by_cases hca : c < a
          · simp [hac, hca] at hsu
          · simp only [hac, hca, if_false] at hsu
            by_cases hab : a < b
            · left
              simp [hab]
            · by_cases hba : b < a
              · right
                have hbc : b < c := by omega
                simp [hbc]
              · have hrec := ih t' u' hsu
                rcases hrec with h | h
                · left
                  simp [hab, hba, h]
                · right
                  have hbc : ¬ b < c := by omega
                  have hcb : ¬ c < b := by omega
                  simp [hbc, hcb, h]

/-- C3 (amended): the queue is sorted in descending JS-string order of the
entries' intersection coordinates (the comparator coerces the coordinate
arrays to strings), so the entry popped first -- the queue's last element --
has a coordinate string less than or equal (in code-unit order) to that of
every entry; and the sort permutes the seed entries.  When the coordinate
strings order the same way as the numeric x-values (e.g. equal-length
digit strings), the popped-first entry is thus the one with the smallest
x: the outermost ring's seed, as the code comment intends -- not the
largest-x entry of the claim. -/
theorem c3_sorted_pop_is_string_minimal (isects : List Isect)
    (queue : List QueueItem) (z : QueueItem)
    (hz : (sortSeedQueue isects queue).getLast? = some z) :
    (sortSeedQueue isects queue).Perm queue ∧
    ∀ q ∈ queue,
      jsCodesLt (coordCodes ((isects.getD q.isect default).coord))
                (coordCodes ((isects.getD z.isect default).coord)) = false := by
  have hperm : (sortSeedQueue isects queue).Perm queue := jsSort_perm _ queue
  refine ⟨hperm, ?_⟩
  have hpw : (sortSeedQueue isects queue).Pairwise (fun x y =>
      jsCodesLt (coordCodes ((isects.getD x.isect default).coord))
                (coordCodes ((isects.getD y.isect default).coord)) = false) := by
    refine jsSort_pairwise _ _ ?_ ?_ ?_ queue
    · intro x y w hxy hyw
      cases hxw : jsCodesLt (coordCodes ((isects.getD x.isect default).coord))
          (coordCodes ((isects.getD w.isect default).coord))
      · rfl
      · rcases jsCodesLt_step _ (coordCodes ((isects.getD y.isect default).coord)) _ hxw with h | h
        · rw [hxy] at h; cases h
        · rw [hyw] at h; cases h
    · intro x y hxy
      exact jsCodesLt_asymm _ _ hxy
    · intro x y hxy
      exact hxy
  intro q hq
  have hq' : q ∈ sortSeedQueue isects queue := hperm.mem_iff.mpr hq
  rcases pairwise_getLast? hpw hz q hq' with rfl | h
  · exact jsCodesLt_irrefl _
  · exact h

/-- Witness for the amended C3 at a concrete one-entry queue. -/
theorem c3_sorted_pop_witness :
    (sortSeedQueue [] [⟨0, -1, 1⟩]).Perm [⟨0, -1, 1⟩] ∧
    ∀ q ∈ [(⟨0, -1, 1⟩ : QueueItem)],
      jsCodesLt (coordCodes ((([] : List Isect).getD q.isect default).coord))
                (coordCodes ((([] : List Isect).getD (⟨0, -1, 1⟩ : QueueItem).isect default).coord)) = false :=
  c3_sorted_pop_is_string_minimal [] [⟨0, -1, 1⟩] ⟨0, -1, 1⟩ (by decide)

/-! ## Structural preservation through the post-processors -/

/-- The child pass writes only `netWinding`: lengths and the `coords`,
`winding` and `parent` fields of every slot are preserved, provided the
recursive continuation preserves them. -/
theorem setNetWindingOfChildrenGo_proj
    (recur : ℤ → ℤ → List OutFeat → Option (List OutFeat))
    (hrec : ∀ p pn fs fs', recur p pn fs = some fs' →
      fs'.length = fs.length ∧ ∀ j,
        (fs'.get? j).map OutFeat.coords = (fs.get? j).map OutFeat.coords ∧
        (fs'.get? j).map OutFeat.winding = (fs.get? j).map OutFeat.winding ∧
        (fs'.get? j).map OutFeat.parent = (fs.get? j).map OutFeat.parent) :
    ∀ idxs par parNet feats feats',
      setNetWindingOfChildrenGo recur idxs par parNet feats = some feats' →
      feats'.length = feats.length ∧ ∀ j,
        (feats'.get? j).map OutFeat.coords = (feats.get? j).map OutFeat.coords ∧
        (feats'.get? j).map OutFeat.winding = (feats.get? j).map OutFeat.winding ∧
        (feats'.get? j).map OutFeat.parent = (feats.get? j).map OutFeat.parent := by
  intro idxs
  induction idxs with
  | nil =>
    intro par parNet feats feats' h
    simp only [setNetWindingOfChildrenGo, Option.some.injEq] at h
    subst h
    exact ⟨rfl, fun j => ⟨rfl, rfl, rfl⟩⟩
  | cons i rest ih =>
    intro par parNet feats feats' h
    simp only [setNetWindingOfChildrenGo] at h
    cases hgi : feats.get? i with
    | none =>
      rw [hgi] at h
      exact ih par parNet feats feats' h
    | some f =>
      simp only [hgi] at h
      by_cases hp : f.parent = par
      · rw [if_pos hp] at h
        cases hr : recur (i : ℤ) (parNet + f.winding)
            (feats.set i { f with netWinding := some (parNet + f.winding) }) with
        | none =>
          rw [hr] at h
          exact Option.noConfusion h
        | some feats₂ =>
          simp only [hr] at h
          have h1 : (feats.set i { f with netWinding := some (parNet + f.winding) }).length
              = feats.length := by simp
          have h1' : ∀ j,
              ((feats.set i { f with netWinding := some (parNet + f.winding) }).get? j).map
                  OutFeat.coords = (feats.get? j).map OutFeat.coords ∧
              ((feats.set i { f with netWinding := some (parNet + f.winding) }).get? j).map
                  OutFeat.winding = (feats.get? j).map OutFeat.winding ∧
              ((feats.set i { f with netWinding := some (parNet + f.winding) }).get? j).map
                  OutFeat.parent = (feats.get? j).map OutFeat.parent := by
            intro j
            by_cases hj : i = j
            · subst hj
              rw [List.get?_set_eq, hgi]
              exact ⟨rfl, rfl, rfl⟩
            · rw [List.get?_set_ne _ _ hj]
              exact ⟨rfl, rfl, rfl⟩
          have h2 := hrec _ _ _ _ hr
          have h3 := ih _ _ _ _ h
          refine ⟨by rw [h3.1, h2.1, h1], fun j => ?_⟩
          obtain ⟨a1, a2, a3⟩ := h1' j
          obtain ⟨b1, b2, b3⟩ := h2.2 j
          obtain ⟨c1, c2, c3⟩ := h3.2 j
          exact ⟨by rw [c1, b1, a1], by rw [c2, b2, a2], by rw [c3, b3, a3]⟩
      · rw [if_neg hp] at h
        exact ih _ _ _ _ h

/-- `setNetWindingOfChildren` preserves lengths and the `coords`, `winding`
and `parent` fields. -/
theorem setNetWindingOfChildren_proj :
    ∀ fuel par parNet feats feats',
      setNetWindingOfChildren fuel par parNet feats = some feats' →
      feats'.length = feats.length ∧ ∀ j,
        (feats'.get? j).map OutFeat.coords = (feats.get? j).map OutFeat.coords ∧
        (feats'.get? j).map OutFeat.winding = (feats.get? j).map OutFeat.winding ∧
        (feats'.get? j).map OutFeat.parent = (feats.get? j).map OutFeat.parent := by
  intro fuel
  induction fuel with
  | zero => intro par parNet feats feats' h; cases h
  | succ fuel ih =>
    intro par parNet feats feats' h
    exact setNetWindingOfChildrenGo_proj _ ih _ par parNet feats feats' h

/-- A fold whose every step preserves lengths and the `coords`, `winding`
and `netWinding` projections preserves them overall. -/
theorem determineParents_foldl_proj (step : List OutFeat → ℕ → List OutFeat)
    (hstep : ∀ fs c, (step fs c).length = fs.length ∧ ∀ j,
      ((step fs c).get? j).map OutFeat.coords = (fs.get? j).map OutFeat.coords ∧
      ((step fs c).get? j).map OutFeat.winding = (fs.get? j).map OutFeat.winding ∧
      ((step fs c).get? j).map OutFeat.netWinding = (fs.get? j).map OutFeat.netWinding) :
    ∀ (l : List ℕ) (fs : List OutFeat),
      (l.foldl step fs).length = fs.length ∧ ∀ j,
        ((l.foldl step fs).get? j).map OutFeat.coords = (fs.get? j).map OutFeat.coords ∧
        ((l.foldl step fs).get? j).map OutFeat.winding = (fs.get? j).map OutFeat.winding ∧
        ((l.foldl step fs).get? j).map OutFeat.netWinding = (fs.get? j).map OutFeat.netWinding := by
  intro l
  induction l with
  | nil => intro fs; exact ⟨rfl, fun j => ⟨rfl, rfl, rfl⟩⟩
  | cons c rest ih =>
    intro fs
    have h1 := hstep fs c
    have h2 := ih (step fs c)
    refine ⟨by rw [List.foldl_cons, h2.1, h1.1], fun j => ?_⟩
    obtain ⟨a1, a2, a3⟩ := h1.2 j
    obtain ⟨b1, b2, b3⟩ := h2.2 j
    rw [List.foldl_cons]
    exact ⟨by rw [b1, a1], by rw [b2, a2], by rw [b3, a3]⟩

/-- `determineParents` writes only `parent`: lengths and the `coords`,
`winding` and `netWinding` fields of every slot are preserved. -/
theorem determineParents_proj (pip : Coord → List Coord → Bool)
    (area : List Coord → Q) (feats : List OutFeat) :
    (determineParents pip area feats).length = feats.length ∧ ∀ j,
      ((determineParents pip area feats).get? j).map OutFeat.coords =
        (feats.get? j).map OutFeat.coords ∧
      ((determineParents pip area feats).get? j).map OutFeat.winding =
        (feats.get? j).map OutFeat.winding ∧
      ((determineParents pip area feats).get? j).map OutFeat.netWinding =
        (feats.get? j).map OutFeat.netWinding := by
  show (determineParents pip area feats).length = feats.length ∧ _
  unfold determineParents
  simp only []
  split
  · apply determineParents_foldl_proj
    intro fs c
    refine ⟨by simp, fun j => ?_⟩
    by_cases hj : c = j
    · subst hj
      rw [List.get?_set_eq]
      cases hgc : fs.get? c with
      | none => simp
      | some g =>
        have hgd : fs.getD c default = g := by
          unfold List.getD
          rw [hgc]
          rfl
        rw [hgd]
        exact ⟨rfl, rfl, rfl⟩
    · rw [List.get?_set_ne _ _ hj]
      exact ⟨rfl, rfl, rfl⟩
  · exact ⟨rfl, fun j => ⟨rfl, rfl, rfl⟩⟩

/-- C5: with zero intersection records, decompose skips graph construction:
the result is exactly the post-processor applied to one output ring per
(closed) input ring with parent `-1` and winding `windingOfRing`; and any
returned output has one ring per input ring whose coordinates are the
closed input ring and whose winding is its extremal-vertex winding. -/
theorem c5_no_isect_fast_path {α : Type} (pip : Coord → List Coord → Bool)
    (area : List Coord → Q) (f : Feature α)
    (hf : f.ftype = "Feature") (hg : f.gtype = "Polygon") :
    (simplepolygon pip area [] f =
      setNetWinding (determineParents pip area ((f.coordinates.map closeRing).map
        (fun r => { coords := r, parent := -1, winding := windingOfRing r,
                    netWinding := none })))) ∧
    ∀ out, simplepolygon pip area [] f = some out →
      out.length = f.coordinates.length ∧
      ∀ i, (out.get? i).map OutFeat.coords = (f.coordinates.get? i).map closeRing ∧
           (out.get? i).map OutFeat.winding =
             (f.coordinates.get? i).map (fun r => windingOfRing (closeRing r)) := by
  have h1 : simplepolygon pip area [] f =
      setNetWinding (determineParents pip area ((f.coordinates.map closeRing).map
        (fun r => { coords := r, parent := -1, winding := windingOfRing r,
                    netWinding := none }))) := by
    unfold simplepolygon
    rw [if_pos ⟨hf, hg⟩]
    rfl
  refine ⟨h1, ?_⟩
  intro out hout
  rw [h1] at hout
  set seed := ((f.coordinates.map closeRing).map
    (fun r => { coords := r, parent := -1, winding := windingOfRing r,
                netWinding := none : OutFeat })) with hseed
  have hsnw := setNetWindingOfChildren_proj _ _ _ _ _ hout
  have hdp := determineParents_proj pip area seed
  have hseedlen : seed.length = f.coordinates.length := by simp [hseed]
  refine ⟨by rw [hsnw.1, hdp.1, hseedlen], ?_⟩
  intro i
  obtain ⟨a1, a2, -⟩ := hsnw.2 i
  obtain ⟨b1, b2, -⟩ := hdp.2 i
  have hseedi : seed.get? i = ((f.coordinates.get? i).map
      (fun r => { coords := closeRing r, parent := -1,
                  winding := windingOfRing (closeRing r), netWinding := none : OutFeat })) := by
    rw [hseed, List.get?_map, List.get?_map, Option.map_map]
    rfl
  constructor
  · rw [a1, b1, hseedi, Option.map_map]
    rfl
  · rw [a2, b2, hseedi, Option.map_map]
    rfl

/-- Witness for C5 on a concrete two-ring feature (one open ring, one
closed). -/
theorem c5_witness :
    ((simplepolygon bboxStrictPip areaAbs [] nestedFeature =
      setNetWinding (determineParents bboxStrictPip areaAbs
        ((nestedFeature.coordinates.map closeRing).map
          (fun r => { coords := r, parent := -1, winding := windingOfRing r,
                      netWinding := none })))) ∧
    ∀ out, simplepolygon bboxStrictPip areaAbs [] nestedFeature = some out →
      out.length = nestedFeature.coordinates.length ∧
      ∀ i, (out.get? i).map OutFeat.coords =
             (nestedFeature.coordinates.get? i).map closeRing ∧
           (out.get? i).map OutFeat.winding =
             (nestedFeature.coordinates.get? i).map
               (fun r => windingOfRing (closeRing r))) :=
  c5_no_isect_fast_path bboxStrictPip areaAbs nestedFeature rfl rfl

/-- Witness for the amended C4 at a concrete scan. -/
theorem c4_first_min_no_y_tiebreak_witness :
    (0 : ℕ) < 1 ∧
    (((0 : ℕ) ≤ leftIsectScan [] 0 1 ∧ leftIsectScan [] 0 1 < 0 + 1) ∧
    (∀ k, k < 1 →
      ((([] : List Isect).getD (leftIsectScan [] 0 1) default).coord.1).toRat ≤
        ((([] : List Isect).getD (0 + k) default).coord.1).toRat) ∧
    (∀ j, 0 ≤ j → j < leftIsectScan [] 0 1 →
      ((([] : List Isect).getD (leftIsectScan [] 0 1) default).coord.1).toRat <
        ((([] : List Isect).getD j default).coord.1).toRat)) :=
  ⟨by decide, c4_first_min_no_y_tiebreak [] 0 1 (by decide)⟩

/-! ## Parent-chain lemmas (C6) -/

theorem chainData_len_le_fuel :
    ∀ (feats : List OutFeat) (F : ℕ) (par : ℤ) (k : ℕ) (s : ℤ) (c l : ℕ),
      chainData feats F par k = some (s, c, l) → l ≤ F := by
  intro feats F
  induction F with
  | zero => intro par k s c l h; cases h
  | succ F ih =>
    intro par k s c l h
    unfold chainData at h
    split at h
    · simp only [Option.some.injEq, Prod.mk.injEq] at h
      obtain ⟨h1, h2, h3⟩ := h
      omega
    · split at h
      · cases h
      · split at h
        · cases h
        · cases hrec : chainData feats F par (parOf feats k).toNat with
          | none => rw [hrec] at h; cases h
          | some v =>
            rw [hrec] at h
            obtain ⟨s₀, c₀, l₀⟩ := v
            simp only [Option.map_some', Option.some.injEq, Prod.mk.injEq] at h
            have := ih par (parOf feats k).toNat s₀ c₀ l₀ hrec
            omega

theorem chainData_fuel :
    ∀ (feats : List OutFeat) (F : ℕ) (par : ℤ) (k : ℕ) (s : ℤ) (c l : ℕ),
      chainData feats F par k = some (s, c, l) →
      ∀ F', l ≤ F' → chainData feats F' par k = some (s, c, l) := by
  intro feats F
  induction F with
  | zero => intro par k s c l h; cases h
  | succ F ih =>
    intro par k s c l h F' hF'
    unfold chainData at h
    split at h
    · simp only [Option.some.injEq, Prod.mk.injEq] at h
      obtain ⟨h1, h2, h3⟩ := h
      obtain ⟨F'', rfl⟩ : ∃ F'', F' = F'' + 1 := ⟨F' - 1, by omega⟩
      unfold chainData
      rw [if_pos (by assumption)]
      rw [h1, h2, h3]
    · rename_i hpar
      split at h
      · cases h
      · rename_i hneg
        split at h
        · cases h
        · rename_i hrange
          cases hrec : chainData feats F par (parOf feats k).toNat with
          | none => rw [hrec] at h; cases h
          | some v =>
            rw [hrec] at h
            obtain ⟨s₀, c₀, l₀⟩ := v
            simp only [Option.map_some', Option.some.injEq, Prod.mk.injEq] at h
            obtain ⟨h1, h2, h3⟩ := h
            obtain ⟨F'', rfl⟩ : ∃ F'', F' = F'' + 1 := ⟨F' - 1, by omega⟩
            have hrec' := ih par (parOf feats k).toNat s₀ c₀ l₀ hrec F'' (by omega)
            unfold chainData
            rw [if_neg hpar, if_neg hneg, if_neg hrange, hrec']
            simp only [Option.map_some', Option.some.injEq, Prod.mk.injEq]
            exact ⟨h1, h2, h3⟩

theorem chainData_child :
    ∀ (feats : List OutFeat) (F : ℕ) (par : ℤ) (k : ℕ) (s : ℤ) (c l : ℕ),
      chainData feats F par k = some (s, c, l) → k < feats.length →
      c < feats.length ∧ parOf feats c = par := by
  intro feats F
  induction F with
  | zero => intro par k s c l h; cases h
  | succ F ih =>
    intro par k s c l h hk
    unfold chainData at h
    split at h
    · simp only [Option.some.injEq, Prod.mk.injEq] at h
      obtain ⟨h1, h2, h3⟩ := h
      subst h2
      exact ⟨hk, by assumption⟩
    · split at h
      · cases h
      · split at h
        · cases h
        · rename_i hrange
          cases hrec : chainData feats F par (parOf feats k).toNat with
          | none => rw [hrec] at h; cases h
          | some v =>
            rw [hrec] at h
            obtain ⟨s₀, c₀, l₀⟩ := v
            simp only [Option.map_some', Option.some.injEq, Prod.mk.injEq] at h
            obtain ⟨h1, h2, h3⟩ := h
            subst h2
            exact ih par (parOf feats k).toNat s₀ c₀ l₀ hrec (by omega)

theorem chainData_congr (feats feats' : List OutFeat)
    (hlen : feats'.length = feats.length)
    (hpar : ∀ j, parOf feats' j = parOf feats j)
    (hw : ∀ j, wOf feats' j = wOf feats j) :
    ∀ (F : ℕ) (par : ℤ) (k : ℕ), chainData feats' F par k = chainData feats F par k := by
  intro F
  induction F with
  | zero => intro par k; rfl
  | succ F ih =>
    intro par k
    unfold chainData
    rw [hpar, hw, hlen, ih]

theorem chainData_len_rank (feats : List OutFeat) (rank : ℕ → ℕ)
    (hrk : RankOK feats rank) :
    ∀ (F : ℕ) (i k : ℕ), k < feats.length →
      ∀ (s : ℤ) (c l : ℕ), chainData feats F (i : ℤ) k = some (s, c, l) →
        l + rank i ≤ rank k := by
  intro F
  induction F with
  | zero => intro i k _ s c l h; cases h
  | succ F ih =>
    intro i k hk s c l h
    unfold chainData at h
    split at h
    · rename_i hpar
      simp only [Option.some.injEq, Prod.mk.injEq] at h
      obtain ⟨h1, h2, h3⟩ := h
      have := hrk k hk (by rw [hpar]; exact Int.natCast_nonneg i)
      rw [hpar] at this
      simp only [Int.toNat_natCast] at this
      omega
    · rename_i hpar
      split at h
      · cases h
      · rename_i hneg
        split at h
        · cases h
        · rename_i hrange
          cases hrec : chainData feats F (i : ℤ) (parOf feats k).toNat with
          | none => rw [hrec] at h; cases h
          | some v =>
            rw [hrec] at h
            obtain ⟨s₀, c₀, l₀⟩ := v
            simp only [Option.map_some', Option.some.injEq, Prod.mk.injEq] at h
            obtain ⟨h1, h2, h3⟩ := h
            have hsub := ih i (parOf feats k).toNat (by omega) s₀ c₀ l₀ hrec
            have := (hrk k hk (by omega)).2
            omega

theorem chainData_extend (feats : List OutFeat) (rank : ℕ → ℕ)
    (hrk : RankOK feats rank) (i : ℕ) (hi : i < feats.length)
    (par : ℤ) (hpi : parOf feats i = par) :
    ∀ (F : ℕ) (k : ℕ), k < feats.length →
      ∀ (s : ℤ) (c l : ℕ), chainData feats F (i : ℤ) k = some (s, c, l) →
        chainData feats (F + 1) par k = some (s + wOf feats i, i, l + 1) := by
  have hipar : ((i : ℤ)) ≠ par := by
    intro hip
    have := hrk i hi (by rw [hpi, ← hip]; exact Int.natCast_nonneg i)
    rw [hpi, ← hip] at this
    simp only [Int.toNat_natCast] at this
    omega
  intro F
  induction F with
  | zero => intro k _ s c l h; cases h
  | succ F ih =>
    intro k hk s c l h
    unfold chainData at h
    split at h
    · rename_i hpk
      simp only [Option.some.injEq, Prod.mk.injEq] at h
      obtain ⟨h1, h2, h3⟩ := h
      show chainData feats (F + 1 + 1) par k = _
      unfold chainData
      rw [if_neg (by rw [hpk]; exact hipar),
        if_neg (by rw [hpk]; simp),
        if_neg (by rw [hpk]; simp; omega)]
      have hsub : chainData feats (F + 1) par ((parOf feats k).toNat) = some (wOf feats i, i, 1) := by
        rw [hpk]
        simp only [Int.toNat_natCast]
        unfold chainData
        rw [if_pos hpi]
      rw [hsub]
      simp only [Option.map_some', Option.some.injEq, Prod.mk.injEq]
      refine ⟨by omega, trivial, by omega⟩
    · rename_i hpk
      split at h
      · cases h
      · rename_i hneg
        split at h
        · cases h
        · rename_i hrange
          cases hrec : chainData feats F (i : ℤ) (parOf feats k).toNat with
          | none => rw [hrec] at h; cases h
          | some v =>
            rw [hrec] at h
            obtain ⟨s₀, c₀, l₀⟩ := v
            simp only [Option.map_some', Option.some.injEq, Prod.mk.injEq] at h
            obtain ⟨h1, h2, h3⟩ := h
            have hplt : (parOf feats k).toNat < feats.length := by omega
            have hih := ih (parOf feats k).toNat hplt s₀ c₀ l₀ hrec
            show chainData feats (F + 1 + 1) par k = _
            unfold chainData
            have hkpar : ¬ parOf feats k = par := by
              intro hkp
              have hrank1 := chainData_len_rank feats rank hrk F i
                (parOf feats k).toNat hplt s₀ c₀ l₀ hrec
              have hge : 0 ≤ parOf feats i := by rw [hpi, ← hkp]; omega
              have := (hrk i hi hge).2
              rw [hpi, ← hkp] at this
              omega
            rw [if_neg hkpar, if_neg hneg, if_neg hrange, hih]
            simp only [Option.map_some', Option.some.injEq, Prod.mk.injEq]
            refine ⟨by omega, trivial, by omega⟩

theorem chainData_split (feats : List OutFeat) :
    ∀ (F : ℕ) (par : ℤ) (k : ℕ), k < feats.length →
      ∀ (s : ℤ) (c l : ℕ), chainData feats (F + 1) par k = some (s, c, l) → k ≠ c →
        ∃ s' c' l', chainData feats F ((c : ℕ) : ℤ) k = some (s', c', l') ∧
          s = s' + wOf feats c ∧ l = l' + 1 := by
  intro F
  induction F with
  | zero =>
    intro par k hk s c l h hkc
    unfold chainData at h
    split at h
    · simp only [Option.some.injEq, Prod.mk.injEq] at h
      obtain ⟨h1, h2, h3⟩ := h
      exact absurd h2 hkc
    · split at h
      · cases h
      · split at h
        · cases h
        · simp only [chainData, Option.map_none'] at h
          cases h
  | succ F ih =>
    intro par k hk s c l h hkc
    unfold chainData at h
    split at h
    · simp only [Option.some.injEq, Prod.mk.injEq] at h
      obtain ⟨h1, h2, h3⟩ := h
      exact absurd h2 hkc
    · rename_i hpk
      split at h
      · cases h
      · rename_i hneg
        split at h
        · cases h
        · rename_i hrange
          cases hrec : chainData feats (F + 1) par (parOf feats k).toNat with
          | none => rw [hrec] at h; cases h
          | some v =>
            rw [hrec] at h
            obtain ⟨s₀, c₀, l₀⟩ := v
            simp only [Option.map_some', Option.some.injEq, Prod.mk.injEq] at h
            obtain ⟨h1, h2, h3⟩ := h
            rw [h2] at hrec
            by_cases hpc : (parOf feats k).toNat = c
            · have hs₀ : s₀ = wOf feats c ∧ l₀ = 1 := by
                rw [hpc] at hrec
                have hcc := chainData_child feats (F + 1) par c s₀ c l₀ hrec (by omega)
                unfold chainData at hrec
                rw [if_pos hcc.2] at hrec
                simp only [Option.some.injEq, Prod.mk.injEq] at hrec
                exact ⟨hrec.1.symm, hrec.2.2.symm⟩
              refine ⟨wOf feats k, k, 1, ?_, by omega, by omega⟩
              have hkc' : parOf feats k = ((c : ℕ) : ℤ) := by
                rw [← hpc]
                exact (Int.toNat_of_nonneg (by omega)).symm
              unfold chainData
              rw [if_pos hkc']
            · obtain ⟨s', c', l', hsub, hs, hl⟩ :=
                ih par (parOf feats k).toNat (by omega) s₀ c l₀ hrec hpc
              refine ⟨s' + wOf feats k, c', l' + 1, ?_, by omega, by omega⟩
              unfold chainData
              rw [if_neg (by
                  intro hx
                  apply hpc
                  rw [hx]
                  simp), if_neg hneg, if_neg hrange, hsub]
              simp only [Option.map_some']


theorem chainData_len_pos :
    ∀ (feats : List OutFeat) (F : ℕ) (par : ℤ) (k : ℕ) (s : ℤ) (c l : ℕ),
      chainData feats F par k = some (s, c, l) → 1 ≤ l := by
  intro feats F par k s c l h
  cases F with
  | zero => cases h
  | succ F =>
    unfold chainData at h
    split at h
    · simp only [Option.some.injEq, Prod.mk.injEq] at h
      omega
    · split at h
      · cases h
      · split at h
        · cases h
        · cases hrec : chainData feats F par (parOf feats k).toNat with
          | none => rw [hrec] at h; cases h
          | some v =>
            rw [hrec] at h
            obtain ⟨s₀, c₀, l₀⟩ := v
            simp only [Option.map_some', Option.some.injEq, Prod.mk.injEq] at h
            omega

theorem parOf_eq_of_proj {fs out : List OutFeat}
    (hproj : ∀ j, (out.get? j).map OutFeat.parent = (fs.get? j).map OutFeat.parent) :
    ∀ j, parOf out j = parOf fs j := by
  intro j
  have h := hproj j
  unfold parOf List.getD
  cases hx : out.get? j <;> cases hy : fs.get? j <;> rw [hx, hy] at h <;> simp_all

theorem wOf_eq_of_proj {fs out : List OutFeat}
    (hproj : ∀ j, (out.get? j).map OutFeat.winding = (fs.get? j).map OutFeat.winding) :
    ∀ j, wOf out j = wOf fs j := by
  intro j
  have h := hproj j
  unfold wOf List.getD
  cases hx : out.get? j <;> cases hy : fs.get? j <;> rw [hx, hy] at h <;> simp_all

theorem rankOK_congr {fs out : List OutFeat} (rank : ℕ → ℕ)
    (hlen : out.length = fs.length)
    (hpar : ∀ j, parOf out j = parOf fs j)
    (hrk : RankOK fs rank) : RankOK out rank := by
  intro i hi hge
  rw [hpar] at hge ⊢
  rw [hlen] at hi ⊢
  exact hrk i hi hge


/-- One pass of the child loop, characterised: under an acyclic in-range
parent relation (witnessed by `rank`, bounded by the list length), and
assuming the recursive continuation `recur` implements the subtree update
for parent chains of length at most `F`, the pass over `idxs` updates
exactly the slots whose parent chain reaches `par` through a direct child
of `par` lying in `idxs`, setting their `netWinding` to `parNet` plus the
chain's winding sum, and leaves every other slot untouched. -/
theorem setNetWindingOfChildrenGo_char (rank : ℕ → ℕ)
    (recur : ℤ → ℤ → List OutFeat → Option (List OutFeat)) (F : ℕ)
    (Hproj : ∀ p pn fs out, recur p pn fs = some out →
      out.length = fs.length ∧ ∀ j,
        (out.get? j).map OutFeat.coords = (fs.get? j).map OutFeat.coords ∧
        (out.get? j).map OutFeat.winding = (fs.get? j).map OutFeat.winding ∧
        (out.get? j).map OutFeat.parent = (fs.get? j).map OutFeat.parent)
    (Hrec : ∀ (i : ℕ) (pn : ℤ) (fs : List OutFeat),
      i < fs.length →
      RankOK fs rank → (∀ k, k < fs.length → rank k < fs.length) →
      (∀ k, k < fs.length → ∀ (s : ℤ) (c l : ℕ),
        chainData fs fs.length ((i : ℕ) : ℤ) k = some (s, c, l) → l ≤ F) →
      ∃ out, recur ((i : ℕ) : ℤ) pn fs = some out ∧
        ∀ k, k < fs.length →
          (∀ (s : ℤ) (c l : ℕ), chainData fs fs.length ((i : ℕ) : ℤ) k = some (s, c, l) →
            out.get? k = (fs.get? k).map
              (fun f => { f with netWinding := some (pn + s) })) ∧
          (chainData fs fs.length ((i : ℕ) : ℤ) k = none → out.get? k = fs.get? k)) :
    ∀ (idxs : List ℕ) (par parNet : ℤ) (feats : List OutFeat),
      RankOK feats rank → (∀ k, k < feats.length → rank k < feats.length) →
      (∀ k, k < feats.length → ∀ (s : ℤ) (c l : ℕ),
        chainData feats feats.length par k = some (s, c, l) → c ∈ idxs → l ≤ F + 1) →
      ∃ feats', setNetWindingOfChildrenGo recur idxs par parNet feats = some feats' ∧
        ∀ k, k < feats.length →
          (∀ (s : ℤ) (c l : ℕ), chainData feats feats.length par k = some (s, c, l) →
            (c ∈ idxs → feats'.get? k =
              (feats.get? k).map (fun f => { f with netWinding := some (parNet + s) })) ∧
            (c ∉ idxs → feats'.get? k = feats.get? k)) ∧
          (chainData feats feats.length par k = none → feats'.get? k = feats.get? k) := by
  intro idxs
  induction idxs with
  | nil =>
    intro par parNet feats hrk hrkb hch
    exact ⟨feats, rfl, fun k hk =>
      ⟨fun s c l hcd => ⟨fun hc => absurd hc (List.not_mem_nil c), fun _ => rfl⟩,
       fun _ => rfl⟩⟩
  | cons i rest ih =>
    intro par parNet feats hrk hrkb hch
    cases hpk : feats.get? i with
    | none =>
      have hin : feats.length ≤ i := List.get?_eq_none.mp hpk
      obtain ⟨feats₃, hgo, hchar⟩ := ih par parNet feats hrk hrkb (fun k hk s c l hcd hc =>
        hch k hk s c l hcd (List.mem_cons_of_mem i hc))
      refine ⟨feats₃, ?_, ?_⟩
      · simp only [setNetWindingOfChildrenGo, hpk]
        exact hgo
      · intro k hk
        obtain ⟨hsome, hnone⟩ := hchar k hk
        refine ⟨fun s c l hcd => ?_, hnone⟩
        have hc' := chainData_child feats feats.length par k s c l hcd hk
        have hci : c ≠ i := by
          have := hc'.1
          omega
        obtain ⟨h1, h2⟩ := hsome s c l hcd
        refine ⟨fun hc => ?_, fun hc => ?_⟩
        · rcases List.mem_cons.mp hc with h | h
          · exact absurd h hci
          · exact h1 h
        · exact h2 (fun hcmem => hc (List.mem_cons_of_mem i hcmem))
    | some f =>
      have hi : i < feats.length := by
        by_contra hcon
        rw [List.get?_eq_none.mpr (by omega)] at hpk
        exact Option.noConfusion hpk
      by_cases hp : f.parent = par
      · -- child `i` is processed: its `netWinding` is set, the recursion
        -- updates its subtree, and the pass continues over `rest`
        have hparOfi : parOf feats i = par := by
          unfold parOf List.getD
          rw [hpk]
          exact hp
        have hwin : wOf feats i = f.winding := by
          unfold wOf List.getD
          rw [hpk]
          rfl
        have hchaini : chainData feats feats.length par i = some (f.winding, i, 1) := by
          obtain ⟨m, hm⟩ : ∃ m, feats.length = m + 1 := ⟨feats.length - 1, by omega⟩
          rw [hm]
          unfold chainData
          rw [if_pos hparOfi, hwin]
        have hlen₁ : (feats.set i { f with netWinding := some (parNet + f.winding) }).length
            = feats.length := by simp
        have hpar₁ : ∀ j, parOf
            (feats.set i { f with netWinding := some (parNet + f.winding) }) j
            = parOf feats j := by
          intro j
          unfold parOf List.getD
          by_cases hj : i = j
          · subst hj
            rw [List.get?_set_eq, hpk]
            rfl
          · rw [List.get?_set_ne _ _ hj]
        have hw₁ : ∀ j, wOf
            (feats.set i { f with netWinding := some (parNet + f.winding) }) j
            = wOf feats j := by
          intro j
          unfold wOf List.getD
          by_cases hj : i = j
          · subst hj
            rw [List.get?_set_eq, hpk]
            rfl
          · rw [List.get?_set_ne _ _ hj]
        have hcd₁ : ∀ (G : ℕ) (p : ℤ) (k : ℕ),
            chainData (feats.set i { f with netWinding := some (parNet + f.winding) }) G p k
            = chainData feats G p k :=
          chainData_congr feats _ hlen₁ hpar₁ hw₁
        -- a subtree chain to `i` extends to a chain to `par` one step longer
        have himply : ∀ k, k < feats.length → ∀ (s₀ : ℤ) (c₀ l₀ : ℕ),
            chainData (feats.set i { f with netWinding := some (parNet + f.winding) })
              (feats.set i { f with netWinding := some (parNet + f.winding) }).length
              ((i : ℕ) : ℤ) k = some (s₀, c₀, l₀) →
            chainData feats feats.length par k = some (s₀ + f.winding, i, l₀ + 1) ∧ 1 ≤ l₀ := by
          intro k hk s₀ c₀ l₀ hx
          rw [hlen₁, hcd₁] at hx
          have hext := chainData_extend feats rank hrk i hi par hparOfi
            feats.length k hk s₀ c₀ l₀ hx
          have hlrk := chainData_len_rank feats rank hrk feats.length i k hk s₀ c₀ l₀ hx
          have hrkk := hrkb k hk
          have hpos := chainData_len_pos feats feats.length ((i : ℕ) : ℤ) k s₀ c₀ l₀ hx
          have hdown := chainData_fuel feats (feats.length + 1) par k
            (s₀ + wOf feats i) i (l₀ + 1) hext feats.length (by omega)
          rw [hwin] at hdown
          exact ⟨hdown, hpos⟩
        have hsubbound : ∀ k,
            k < (feats.set i { f with netWinding := some (parNet + f.winding) }).length →
            ∀ (s₀ : ℤ) (c₀ l₀ : ℕ),
            chainData (feats.set i { f with netWinding := some (parNet + f.winding) })
              (feats.set i { f with netWinding := some (parNet + f.winding) }).length
              ((i : ℕ) : ℤ) k = some (s₀, c₀, l₀) → l₀ ≤ F := by
          intro k hk s₀ c₀ l₀ hx
          rw [hlen₁] at hk
          obtain ⟨himp, -⟩ := himply k hk s₀ c₀ l₀ hx
          have := hch k hk (s₀ + f.winding) i (l₀ + 1) himp (List.mem_cons_self i rest)
          omega
        obtain ⟨feats₂, hrec2, hchar2⟩ := Hrec i (parNet + f.winding)
          (feats.set i { f with netWinding := some (parNet + f.winding) })
          (by rw [hlen₁]; exact hi)
          (rankOK_congr rank hlen₁ hpar₁ hrk)
          (by intro k hk; rw [hlen₁] at hk ⊢; exact hrkb k hk)
          hsubbound
        have hproj2 := Hproj _ _ _ _ hrec2
        have hlen₂ : feats₂.length = feats.length := by
          rw [hproj2.1]
          exact hlen₁
        have hpar₂ : ∀ j, parOf feats₂ j = parOf feats j := by
          intro j
          rw [parOf_eq_of_proj (fun j => (hproj2.2 j).2.2) j]
          exact hpar₁ j
        have hw₂ : ∀ j, wOf feats₂ j = wOf feats j := by
          intro j
          rw [wOf_eq_of_proj (fun j => (hproj2.2 j).2.1) j]
          exact hw₁ j
        have hcd₂ : ∀ (G : ℕ) (p : ℤ) (k : ℕ),
            chainData feats₂ G p k = chainData feats G p k :=
          chainData_congr feats feats₂ hlen₂ hpar₂ hw₂
        -- `i`'s own subtree chain back to `i` would be a cycle
        have hnoi : chainData (feats.set i { f with netWinding := some (parNet + f.winding) })
            (feats.set i { f with netWinding := some (parNet + f.winding) }).length
            ((i : ℕ) : ℤ) i = none := by
          cases hx : chainData (feats.set i { f with netWinding := some (parNet + f.winding) })
              (feats.set i { f with netWinding := some (parNet + f.winding) }).length
              ((i : ℕ) : ℤ) i with
          | none => rfl
          | some v =>
            obtain ⟨s₀, c₀, l₀⟩ := v
            obtain ⟨himp, hpos⟩ := himply i hi s₀ c₀ l₀ hx
            rw [hchaini] at himp
            simp only [Option.some.injEq, Prod.mk.injEq] at himp
            omega
        -- a slot whose chain to `par` does not pass through `i` is
        -- untouched by the recursion
        have huntouched : ∀ k, k < feats.length → ∀ (s : ℤ) (c l : ℕ),
            chainData feats feats.length par k = some (s, c, l) → c ≠ i →
            feats₂.get? k = feats.get? k := by
          intro k hk s c l hcd hci
          have hki : k ≠ i := by
            intro hki
            subst hki
            rw [hchaini] at hcd
            simp only [Option.some.injEq, Prod.mk.injEq] at hcd
            exact hci hcd.2.1.symm
          have hnochain : chainData
              (feats.set i { f with netWinding := some (parNet + f.winding) })
              (feats.set i { f with netWinding := some (parNet + f.winding) }).length
              ((i : ℕ) : ℤ) k = none := by
            cases hx : chainData
                (feats.set i { f with netWinding := some (parNet + f.winding) })
                (feats.set i { f with netWinding := some (parNet + f.winding) }).length
                ((i : ℕ) : ℤ) k with
            | none => rfl
            | some v =>
              obtain ⟨s₀, c₀, l₀⟩ := v
              obtain ⟨himp, -⟩ := himply k hk s₀ c₀ l₀ hx
              rw [hcd] at himp
              simp only [Option.some.injEq, Prod.mk.injEq] at himp
              exact absurd himp.2.1 hci
          have h2 := (hchar2 k (by rw [hlen₁]; exact hk)).2 hnochain
          rw [h2]
          exact List.get?_set_ne _ _ (fun he => hki he.symm)
        obtain ⟨feats₃, hgo, hchar3⟩ := ih par parNet feats₂
          (rankOK_congr rank hlen₂ hpar₂ hrk)
          (by intro k hk; rw [hlen₂] at hk ⊢; exact hrkb k hk)
          (by
            intro k hk s c l hcd hc
            rw [hlen₂] at hk
            rw [hlen₂, hcd₂] at hcd
            exact hch k hk s c l hcd (List.mem_cons_of_mem i hc))
        refine ⟨feats₃, ?_, ?_⟩
        · simp only [setNetWindingOfChildrenGo, hpk, if_pos hp]
          rw [hrec2]
          exact hgo
        · intro k hk
          have hk₁ : k < (feats.set i { f with netWinding := some (parNet + f.winding) }).length := by
            rw [hlen₁]
            exact hk
          have hk₂ : k < feats₂.length := by
            rw [hlen₂]
            exact hk
          refine ⟨fun s c l hcd => ?_, fun hcd => ?_⟩
          · have hcd₂' : chainData feats₂ feats₂.length par k = some (s, c, l) := by
              rw [hlen₂, hcd₂]
              exact hcd
            refine ⟨fun hc => ?_, fun hc => ?_⟩
            · by_cases hci : c = i
              · subst hci
                by_cases hki : k = c
                · subst hki
                  rw [hchaini] at hcd
                  simp only [Option.some.injEq, Prod.mk.injEq] at hcd
                  obtain ⟨hs, hl⟩ := hcd
                  have hf1 : (feats.set k { f with netWinding := some (parNet + f.winding) }).get? k
                      = some { f with netWinding := some (parNet + f.winding) } := by
                    rw [List.get?_set_eq, hpk]
                    rfl
                  have h2 := (hchar2 k hk₁).2 hnoi
                  have hf2 : feats₂.get? k = some { f with netWinding := some (parNet + f.winding) } := by
                    rw [h2]
                    exact hf1
                  by_cases hir : k ∈ rest
                  · have h3 := ((hchar3 k hk₂).1 s k l hcd₂').1 hir
                    rw [h3, hf2, hpk]
                    rfl
                  · have h3 := ((hchar3 k hk₂).1 s k l hcd₂').2 hir
                    rw [h3, hf2, hpk, ← hs]
                    rfl
                · obtain ⟨m, hm⟩ : ∃ m, feats.length = m + 1 := ⟨feats.length - 1, by omega⟩
                  obtain ⟨s', c', l', hsub, hs, hl⟩ := chainData_split feats m par k hk s c l
                    (by rw [← hm]; exact hcd) hki
                  have hlift : chainData feats feats.length ((c : ℕ) : ℤ) k = some (s', c', l') := by
                    have hle := chainData_len_le_fuel feats m ((c : ℕ) : ℤ) k s' c' l' hsub
                    exact chainData_fuel feats m _ k s' c' l' hsub feats.length (by omega)
                  have hx1 : chainData
                      (feats.set c { f with netWinding := some (parNet + f.winding) })
                      (feats.set c { f with netWinding := some (parNet + f.winding) }).length
                      ((c : ℕ) : ℤ) k = some (s', c', l') := by
                    rw [hlen₁, hcd₁]
                    exact hlift
                  have h2 := (hchar2 k hk₁).1 s' c' l' hx1
                  have hset : (feats.set c { f with netWinding := some (parNet + f.winding) }).get? k
                      = feats.get? k :=
                    List.get?_set_ne _ _ (fun he => hki he.symm)
                  rw [hset] at h2
                  have hv : parNet + f.winding + s' = parNet + s := by omega
                  simp only [hv] at h2
                  by_cases hir : c ∈ rest
                  · have h3 := ((hchar3 k hk₂).1 s c l hcd₂').1 hir
                    rw [h3, h2]
                    cases hfk : feats.get? k <;> rfl
                  · have h3 := ((hchar3 k hk₂).1 s c l hcd₂').2 hir
                    rw [h3]
                    exact h2
              · have hcr : c ∈ rest := by
                  rcases List.mem_cons.mp hc with h | h
                  · exact absurd h hci
                  · exact h
                have h2 := huntouched k hk s c l hcd hci
                have h3 := ((hchar3 k hk₂).1 s c l hcd₂').1 hcr
                rw [h3, h2]
            · have hci : c ≠ i := fun he => hc (by rw [he]; exact List.mem_cons_self i rest)
              have hcr : c ∉ rest := fun hmem => hc (List.mem_cons_of_mem i hmem)
              have h2 := huntouched k hk s c l hcd hci
              have h3 := ((hchar3 k hk₂).1 s c l hcd₂').2 hcr
              rw [h3, h2]
          · have hki : k ≠ i := by
              intro hki
              subst hki
              rw [hchaini] at hcd
              exact Option.noConfusion hcd
            have hnochain : chainData
                (feats.set i { f with netWinding := some (parNet + f.winding) })
                (feats.set i { f with netWinding := some (parNet + f.winding) }).length
                ((i : ℕ) : ℤ) k = none := by
              cases hx : chainData
                  (feats.set i { f with netWinding := some (parNet + f.winding) })
                  (feats.set i { f with netWinding := some (parNet + f.winding) }).length
                  ((i : ℕ) : ℤ) k with
              | none => rfl
              | some v =>
                obtain ⟨s₀, c₀, l₀⟩ := v
                obtain ⟨himp, -⟩ := himply k hk s₀ c₀ l₀ hx
                rw [hcd] at himp
                exact Option.noConfusion himp
            have h2 := (hchar2 k hk₁).2 hnochain
            have h2' : feats₂.get? k = feats.get? k := by
              rw [h2]
              exact List.get?_set_ne _ _ (fun he => hki he.symm)
            have hcdnone₂ : chainData feats₂ feats₂.length par k = none := by
              rw [hlen₂, hcd₂]
              exact hcd
            have h3 := (hchar3 k hk₂).2 hcdnone₂
            rw [h3, h2']
      · -- `i` is not a child of `par`: the slot is skipped
        have hparOfi : parOf feats i = f.parent := by
          unfold parOf List.getD
          rw [hpk]
          rfl
        obtain ⟨feats₃, hgo, hchar⟩ := ih par parNet feats hrk hrkb (fun k hk s c l hcd hc =>
          hch k hk s c l hcd (List.mem_cons_of_mem i hc))
        refine ⟨feats₃, ?_, ?_⟩
        · simp only [setNetWindingOfChildrenGo, hpk, if_neg hp]
          exact hgo
        · intro k hk
          obtain ⟨hsome, hnone⟩ := hchar k hk
          refine ⟨fun s c l hcd => ?_, hnone⟩
          have hc' := chainData_child feats feats.length par k s c l hcd hk
          have hci : c ≠ i := by
            intro hcie
            subst hcie
            rw [hparOfi] at hc'
            exact hp hc'.2
          obtain ⟨h1, h2⟩ := hsome s c l hcd
          refine ⟨fun hc => ?_, fun hc => ?_⟩
          · rcases List.mem_cons.mp hc with h | h
            · exact absurd h hci
            · exact h1 h
          · exact h2 (fun hcmem => hc (List.mem_cons_of_mem i hcmem))



/-- A pass of the child loop over indices none of which holds a child of
`par` leaves the list unchanged. -/
theorem setNetWindingOfChildrenGo_no_children
    (recur : ℤ → ℤ → List OutFeat → Option (List OutFeat)) :
    ∀ (idxs : List ℕ) (par parNet : ℤ) (feats : List OutFeat),
      (∀ i ∈ idxs, ∀ f, feats.get? i = some f → f.parent ≠ par) →
      setNetWindingOfChildrenGo recur idxs par parNet feats = some feats := by
  intro idxs
  induction idxs with
  | nil => intro par parNet feats h; rfl
  | cons i rest ih =>
    intro par parNet feats h
    cases hpk : feats.get? i with
    | none =>
      simp only [setNetWindingOfChildrenGo, hpk]
      exact ih par parNet feats (fun j hj f hf => h j (List.mem_cons_of_mem i hj) f hf)
    | some f =>
      have hp : f.parent ≠ par := h i (List.mem_cons_self i rest) f hpk
      simp only [setNetWindingOfChildrenGo, hpk, if_neg hp]
      exact ih par parNet feats (fun j hj f hf => h j (List.mem_cons_of_mem i hj) f hf)

/-- Under an acyclicity witness, any parent chain (to any target value)
has length at most `rank` of its start plus one. -/
theorem chainData_len_rank_any (feats : List OutFeat) (rank : ℕ → ℕ)
    (hrk : RankOK feats rank) :
    ∀ (F : ℕ) (par : ℤ) (k : ℕ), k < feats.length →
      ∀ (s : ℤ) (c l : ℕ), chainData feats F par k = some (s, c, l) →
        l ≤ rank k + 1 := by
  intro F
  induction F with
  | zero => intro par k _ s c l h; cases h
  | succ F ih =>
    intro par k hk s c l h
    unfold chainData at h
    split at h
    · simp only [Option.some.injEq, Prod.mk.injEq] at h
      omega
    · split at h
      · cases h
      · split at h
        · cases h
        · cases hrec : chainData feats F par (parOf feats k).toNat with
          | none => rw [hrec] at h; cases h
          | some v =>
            rw [hrec] at h
            obtain ⟨s₀, c₀, l₀⟩ := v
            simp only [Option.map_some', Option.some.injEq, Prod.mk.injEq] at h
            have hsub := ih par (parOf feats k).toNat (by omega) s₀ c₀ l₀ hrec
            have := (hrk k hk (by omega)).2
            omega

/-- When every parent link is `-1` or in range and the relation is
acyclic, every slot's parent chain reaches the root value `-1`. -/
theorem chainData_exists_root (feats : List OutFeat) (rank : ℕ → ℕ)
    (hrk : RankOK feats rank)
    (hrkb : ∀ k, k < feats.length → rank k < feats.length)
    (hwp : ∀ k, k < feats.length → parOf feats k = -1 ∨ 0 ≤ parOf feats k) :
    ∀ k, k < feats.length →
      ∃ s c l, chainData feats feats.length (-1) k = some (s, c, l) := by
  suffices H : ∀ r k, rank k < r → k < feats.length →
      ∃ s c l, chainData feats feats.length (-1) k = some (s, c, l) by
    exact fun k hk => H (rank k + 1) k (by omega) hk
  intro r
  induction r with
  | zero => intro k hr hk; exact absurd hr (Nat.not_lt_zero _)
  | succ r ih =>
    intro k hr hk
    rcases hwp k hk with hneg | hpos
    · obtain ⟨m, hm⟩ : ∃ m, feats.length = m + 1 := ⟨feats.length - 1, by omega⟩
      refine ⟨wOf feats k, k, 1, ?_⟩
      rw [hm]
      unfold chainData
      rw [if_pos hneg]
    · have hb := hrk k hk hpos
      obtain ⟨s, c, l, hsub⟩ := ih ((parOf feats k).toNat) (by omega) hb.1
      have hlen := chainData_len_rank_any feats rank hrk feats.length (-1)
        ((parOf feats k).toNat) hb.1 s c l hsub
      have hrkk := hrkb k hk
      obtain ⟨m, hm⟩ : ∃ m, feats.length = m + 1 := ⟨feats.length - 1, by omega⟩
      have hdrop : chainData feats m (-1) ((parOf feats k).toNat) = some (s, c, l) :=
        chainData_fuel feats feats.length (-1) ((parOf feats k).toNat) s c l hsub m (by omega)
      refine ⟨s + wOf feats k, c, l + 1, ?_⟩
      rw [hm]
      unfold chainData
      rw [if_neg (by omega), if_neg (by omega), if_neg (by omega), hdrop]
      rfl

/-- The fuelled recursion characterised: with fuel `F + 1` and all parent
chains to `par` of length at most `F`, `setNetWindingOfChildren` succeeds
and sets each reachable slot's `netWinding` to `parNet` plus its chain's
winding sum, leaving unreachable slots unchanged. -/
theorem setNetWindingOfChildren_char (rank : ℕ → ℕ) :
    ∀ (F : ℕ) (par parNet : ℤ) (feats : List OutFeat),
      RankOK feats rank → (∀ k, k < feats.length → rank k < feats.length) →
      (∀ k, k < feats.length → ∀ (s : ℤ) (c l : ℕ),
        chainData feats feats.length par k = some (s, c, l) → l ≤ F) →
      ∃ out, setNetWindingOfChildren (F + 1) par parNet feats = some out ∧
        ∀ k, k < feats.length →
          (∀ (s : ℤ) (c l : ℕ), chainData feats feats.length par k = some (s, c, l) →
            out.get? k = (feats.get? k).map
              (fun f => { f with netWinding := some (parNet + s) })) ∧
          (chainData feats feats.length par k = none → out.get? k = feats.get? k) := by
  intro F
  induction F with
  | zero =>
    intro par parNet feats hrk hrkb hch
    refine ⟨feats, ?_, ?_⟩
    · show setNetWindingOfChildrenGo (setNetWindingOfChildren 0)
        (List.range feats.length) par parNet feats = some feats
      apply setNetWindingOfChildrenGo_no_children
      intro i hi f hf hp
      have hilt : i < feats.length := List.mem_range.mp hi
      have hpi : parOf feats i = par := by
        unfold parOf List.getD
        rw [hf]
        exact hp
      have hwin : wOf feats i = f.winding := by
        unfold wOf List.getD
        rw [hf]
        rfl
      have hchain : chainData feats feats.length par i = some (f.winding, i, 1) := by
        obtain ⟨m, hm⟩ : ∃ m, feats.length = m + 1 := ⟨feats.length - 1, by omega⟩
        rw [hm]
        unfold chainData
        rw [if_pos hpi, hwin]
      have := hch i hilt f.winding i 1 hchain
      omega
    · intro k hk
      constructor
      · intro s c l hcd
        have h1 := chainData_len_pos feats feats.length par k s c l hcd
        have h2 := hch k hk s c l hcd
        omega
      · intro _
        rfl
  | succ F ih =>
    intro par parNet feats hrk hrkb hch
    obtain ⟨out, hgo, hchar⟩ := setNetWindingOfChildrenGo_char rank
      (setNetWindingOfChildren (F + 1)) F
      (fun p pn fs o h => setNetWindingOfChildren_proj (F + 1) p pn fs o h)
      (fun i pn fs hilt hrk' hrkb' hbound => ih ((i : ℕ) : ℤ) pn fs hrk' hrkb' hbound)
      (List.range feats.length) par parNet feats hrk hrkb
      (fun k hk s c l hcd hc => hch k hk s c l hcd)
    refine ⟨out, hgo, ?_⟩
    intro k hk
    obtain ⟨hsome, hnone⟩ := hchar k hk
    refine ⟨fun s c l hcd => ?_, hnone⟩
    have hc := chainData_child feats feats.length par k s c l hcd hk
    exact (hsome s c l hcd).1 (List.mem_range.mpr hc.1)

/-- C6: for every output ring, after post-processing, `netWinding`
equals `winding` when `parent = -1` and equals the parent's `netWinding`
plus its own `winding` when `parent ≥ 0`, propagated top-down over the
acyclic parent tree (acyclicity witnessed by a rank function; every
parent link is `-1` or an in-range index, as `determineParents`
produces). -/
theorem c6_netWinding_recurrence (feats : List OutFeat) (rank : ℕ → ℕ)
    (hrk : RankOK feats rank)
    (hrkb : ∀ k, k < feats.length → rank k < feats.length)
    (hwp : ∀ k, k < feats.length → parOf feats k = -1 ∨ 0 ≤ parOf feats k) :
    ∃ out, setNetWinding feats = some out ∧ out.length = feats.length ∧
      ∀ k, k < feats.length →
        (parOf feats k = -1 → netOf out k = some (wOf feats k)) ∧
        (0 ≤ parOf feats k → ∃ np, netOf out ((parOf feats k).toNat) = some np ∧
          netOf out k = some (np + wOf feats k)) := by
  obtain ⟨out, hrun, hchar⟩ := setNetWindingOfChildren_char rank feats.length (-1) 0 feats
    hrk hrkb (fun k hk s c l hcd => chainData_len_le_fuel feats feats.length (-1) k s c l hcd)
  have hlen : out.length = feats.length := (setNetWindingOfChildren_proj _ _ _ _ _ hrun).1
  refine ⟨out, hrun, hlen, ?_⟩
  intro k hk
  have hfk : ∃ f, feats.get? k = some f := by
    cases hx : feats.get? k with
    | none => exact absurd (List.get?_eq_none.mp hx) (by omega)
    | some f => exact ⟨f, rfl⟩
  obtain ⟨f, hf⟩ := hfk
  constructor
  · intro hroot
    have hchain : chainData feats feats.length (-1) k = some (wOf feats k, k, 1) := by
      obtain ⟨m, hm⟩ : ∃ m, feats.length = m + 1 := ⟨feats.length - 1, by omega⟩
      rw [hm]
      unfold chainData
      rw [if_pos hroot]
    have h1 := (hchar k hk).1 (wOf feats k) k 1 hchain
    rw [hf] at h1
    unfold netOf List.getD
    rw [h1]
    show some (0 + wOf feats k) = some (wOf feats k)
    rw [zero_add]
  · intro hpos
    have hb := hrk k hk hpos
    obtain ⟨sp, cp, lp, hchp⟩ := chainData_exists_root feats rank hrk hrkb hwp
      ((parOf feats k).toNat) hb.1
    have hlp := chainData_len_rank_any feats rank hrk feats.length (-1)
      ((parOf feats k).toNat) hb.1 sp cp lp hchp
    have hrkp := hb.2
    have hrkk := hrkb k hk
    obtain ⟨m, hm⟩ : ∃ m, feats.length = m + 1 := ⟨feats.length - 1, by omega⟩
    have hdrop : chainData feats m (-1) ((parOf feats k).toNat) = some (sp, cp, lp) :=
      chainData_fuel feats feats.length (-1) ((parOf feats k).toNat) sp cp lp hchp m (by omega)
    have hchk : chainData feats feats.length (-1) k = some (sp + wOf feats k, cp, lp + 1) := by
      rw [hm]
      unfold chainData
      rw [if_neg (by omega), if_neg (by omega), if_neg (by omega), hdrop]
      rfl
    have hgk : ∃ g, feats.get? ((parOf feats k).toNat) = some g := by
      cases hx : feats.get? ((parOf feats k).toNat) with
      | none =>
        exact absurd (List.get?_eq_none.mp hx) (by have := hb.1; omega)
      | some g => exact ⟨g, rfl⟩
    obtain ⟨g, hg⟩ := hgk
    have h1 := (hchar k hk).1 (sp + wOf feats k) cp (lp + 1) hchk
    have h2 := (hchar ((parOf feats k).toNat) hb.1).1 sp cp lp hchp
    rw [hf] at h1
    rw [hg] at h2
    refine ⟨0 + sp, ?_, ?_⟩
    · unfold netOf List.getD
      rw [h2]
      rfl
    · unfold netOf List.getD
      rw [h1]
      show some (0 + (sp + wOf feats k)) = some (0 + sp + wOf feats k)
      congr 1
      omega

/-- Witness: on a concrete two-ring forest (root ring 0 with winding 1,
child ring 1 with winding -1) all hypotheses hold with the identity rank
and the recurrence determines both net windings. -/
theorem c6_witness :
    RankOK c6feats (fun i => i) ∧
    (∀ k, k < c6feats.length → (fun i => i) k < c6feats.length) ∧
    (∀ k, k < c6feats.length → parOf c6feats k = -1 ∨ 0 ≤ parOf c6feats k) ∧
    ∃ out, setNetWinding c6feats = some out ∧ out.length = c6feats.length ∧
      ∀ k, k < c6feats.length →
        (parOf c6feats k = -1 → netOf out k = some (wOf c6feats k)) ∧
        (0 ≤ parOf c6feats k → ∃ np, netOf out ((parOf c6feats k).toNat) = some np ∧
          netOf out k = some (np + wOf c6feats k)) :=
  ⟨by unfold RankOK; decide, by decide, by decide,
   c6_netWinding_recurrence c6feats (fun i => i)
     (by unfold RankOK; decide) (by decide) (by decide)⟩



theorem isectsMono_refl (a : List Isect) : IsectsMono a a :=
  ⟨rfl, fun j => ⟨rfl, fun h => h, fun h => h⟩⟩

theorem isectsMono_trans {a b c : List Isect}
    (h1 : IsectsMono a b) (h2 : IsectsMono b c) : IsectsMono a c := by
  refine ⟨h2.1.trans h1.1, fun j => ?_⟩
  obtain ⟨x1, x2, x3⟩ := h1.2 j
  obtain ⟨y1, y2, y3⟩ := h2.2 j
  exact ⟨y1.trans x1, fun h => x2 (y2 h), fun h => x3 (y3 h)⟩

theorem isectsMono_set_flags (isects : List Isect) (nxt : ℕ) (nxtI newI : Isect)
    (h : isects.get? nxt = some nxtI)
    (hco : newI.coord = nxtI.coord)
    (h1 : newI.ringAndEdge1Walkable = true → nxtI.ringAndEdge1Walkable = true)
    (h2 : newI.ringAndEdge2Walkable = true → nxtI.ringAndEdge2Walkable = true) :
    IsectsMono isects (isects.set nxt newI) := by
  refine ⟨by simp, fun j => ?_⟩
  by_cases hj : nxt = j
  · subst hj
    rw [List.get?_set_eq, h]
    refine ⟨?_, fun hx => ?_, fun hx => ?_⟩
    · show some newI.coord = some nxtI.coord
      rw [hco]
    · show some nxtI.ringAndEdge1Walkable = some true
      have hx' : newI.ringAndEdge1Walkable = true := Option.some.inj hx
      rw [h1 hx']
    · show some nxtI.ringAndEdge2Walkable = some true
      have hx' : newI.ringAndEdge2Walkable = true := Option.some.inj hx
      rw [h2 hx']
  · rw [List.get?_set_ne _ _ hj]
    exact ⟨rfl, fun hx => hx, fun hx => hx⟩

/-- C8 (amended): during the inner walk, walkable flags are only ever
cleared, never set -- on arrival at an intersection over one ring-and-edge
the other side's departure flag is cleared, a cleared flag stays cleared
for the rest of the walk, and the intersection list's length and
coordinates are untouched -- so each edge side's guarded queue-push
happens at most once after its clearing. -/
theorem c8_walk_clears_flags :
    ∀ (fuel : ℕ) (isects : List Isect) (queue : List QueueItem) (startCoord : Coord)
      (curRing : ℕ) (par wind : ℤ) (cur : ℕ) (walking : ℕ × ℕ) (nxt : ℕ)
      (acc : List Coord) (out : List Isect × List QueueItem × List Coord),
      walkLoop fuel isects queue startCoord curRing par wind cur walking nxt acc = some out →
      IsectsMono isects out.1 := by
  intro fuel
  induction fuel with
  | zero =>
    intro isects queue sc cr par wind cur walking nxt acc out h
    exact Option.noConfusion h
  | succ fuel ih =>
    intro isects queue sc cr par wind cur walking nxt acc out h
    simp only [walkLoop] at h
    cases hnxt : isects.get? nxt with
    | none =>
      rw [hnxt] at h
      exact Option.noConfusion h
    | some nxtI =>
      simp only [hnxt, Option.bind_eq_bind, Option.some_bind, Option.none_bind, Option.pure_def] at h
      by_cases hstart : coordEq sc nxtI.coord = true
      · rw [if_pos hstart] at h
        have hout := Option.some.inj h
        rw [← hout]
        exact isectsMono_refl isects
      · rw [if_neg hstart] at h
        cases hcur : isects.get? cur with
        | none =>
          simp only [hcur, Option.bind_eq_bind, Option.some_bind, Option.none_bind, Option.pure_def] at h
          exact Option.noConfusion h
        | some curI =>
          simp only [hcur, Option.bind_eq_bind, Option.some_bind, Option.none_bind, Option.pure_def] at h
          by_cases hw : walking = nxtI.ringAndEdge1
          · rw [if_pos hw] at h
            by_cases hwalk : nxtI.ringAndEdge1Walkable = true
            · rw [if_pos hwalk] at h
              cases hn2 : nxtI.nxtIsectAlongRingAndEdge2 with
              | none =>
                simp only [hn2, Option.bind_eq_bind, Option.some_bind, Option.none_bind, Option.pure_def] at h
                exact Option.noConfusion h
              | some n2 =>
                simp only [hn2, Option.bind_eq_bind, Option.some_bind, Option.none_bind, Option.pure_def] at h
                cases hn2I : (isects.set nxt { nxtI with ringAndEdge2Walkable := false, nxtIsectAlongRingAndEdge2 := some n2 }).get? n2 with
                | none =>
                  simp only [hn2I, Option.bind_eq_bind, Option.some_bind, Option.none_bind, Option.pure_def] at h
                  exact Option.noConfusion h
                | some n2I =>
                  simp only [hn2I, Option.bind_eq_bind, Option.some_bind, Option.none_bind, Option.pure_def] at h
                  refine isectsMono_trans ?_ (ih _ _ _ _ _ _ _ _ _ _ _ h)
                  exact isectsMono_set_flags isects nxt nxtI _ hnxt rfl
                    (fun hx => hx) (fun hx => Bool.noConfusion hx)
            · rw [if_neg hwalk] at h
              cases hn2 : nxtI.nxtIsectAlongRingAndEdge2 with
              | none =>
                simp only [hn2, Option.bind_eq_bind, Option.some_bind, Option.none_bind, Option.pure_def] at h
                exact Option.noConfusion h
              | some n2 =>
                simp only [hn2, Option.bind_eq_bind, Option.some_bind, Option.none_bind, Option.pure_def] at h
                refine isectsMono_trans ?_ (ih _ _ _ _ _ _ _ _ _ _ _ h)
                exact isectsMono_set_flags isects nxt nxtI _ hnxt rfl
                  (fun hx => hx) (fun hx => Bool.noConfusion hx)
          · rw [if_neg hw] at h
            by_cases hwalk : nxtI.ringAndEdge2Walkable = true
            · rw [if_pos hwalk] at h
              cases hn1 : nxtI.nxtIsectAlongRingAndEdge1 with
              | none =>
                simp only [hn1, Option.bind_eq_bind, Option.some_bind, Option.none_bind, Option.pure_def] at h
                exact Option.noConfusion h
              | some n1 =>
                simp only [hn1, Option.bind_eq_bind, Option.some_bind, Option.none_bind, Option.pure_def] at h
                cases hn1I : (isects.set nxt { nxtI with ringAndEdge1Walkable := false, nxtIsectAlongRingAndEdge1 := some n1 }).get? n1 with
                | none =>
                  simp only [hn1I, Option.bind_eq_bind, Option.some_bind, Option.none_bind, Option.pure_def] at h
                  exact Option.noConfusion h
                | some n1I =>
                  simp only [hn1I, Option.bind_eq_bind, Option.some_bind, Option.none_bind, Option.pure_def] at h
                  refine isectsMono_trans ?_ (ih _ _ _ _ _ _ _ _ _ _ _ h)
                  exact isectsMono_set_flags isects nxt nxtI _ hnxt rfl
                    (fun hx => Bool.noConfusion hx) (fun hx => hx)
            · rw [if_neg hwalk] at h
              cases hn1 : nxtI.nxtIsectAlongRingAndEdge1 with
              | none =>
                simp only [hn1, Option.bind_eq_bind, Option.some_bind, Option.none_bind, Option.pure_def] at h
                exact Option.noConfusion h
              | some n1 =>
                simp only [hn1, Option.bind_eq_bind, Option.some_bind, Option.none_bind, Option.pure_def] at h
                refine isectsMono_trans ?_ (ih _ _ _ _ _ _ _ _ _ _ _ h)
                exact isectsMono_set_flags isects nxt nxtI _ hnxt rfl
                  (fun hx => Bool.noConfusion hx) (fun hx => hx)

/-- Witness for the walk lemma: on a one-intersection list whose walk
closes immediately, the walk succeeds and the flag-domination conclusion
holds. -/
theorem c8_witness :
    walkLoop 1 c8isects [] ((0 : Q), (0 : Q)) 0 (-1) 1 0 (0, 0) 0 [((0 : Q), (0 : Q))]
      = some (c8isects, [], [((0 : Q), (0 : Q)), ((0 : Q), (0 : Q))]) ∧
    IsectsMono c8isects c8isects :=
  ⟨rfl, c8_walk_clears_flags 1 c8isects [] ((0 : Q), (0 : Q)) 0 (-1) 1 0 (0, 0) 0
    [((0 : Q), (0 : Q))] (c8isects, [], [((0 : Q), (0 : Q)), ((0 : Q), (0 : Q))]) rfl⟩

/-- C8 counterexample: on the figure-eight, the intersection list contains
an entry at the ring vertex `(2,0)` (exactly one such entry), yet across
the decomposition's output rings that coordinate is visited exactly once,
not twice; the run as a whole does halt (the full pipeline returns). -/
theorem c8_counterexample :
    (buildGraph (processInput fig8Feature).coordinates fig8Records).map
        (fun isects => isects.countP (fun i => coordEq i.coord ((2 : Q), (0 : Q)))) = some 1 ∧
    (simplepolygon (fun _ _ => false) (fun _ => (0 : Q)) fig8Records fig8Feature).map
        (fun outs => coordVisits ((2 : Q), (0 : Q)) outs) = some 1 ∧
    (1 : ℕ) ≠ 2 := by
  refine ⟨by decide, ?_, by decide⟩
  rfl


end SimplePolygon
